import Mathlib

/-!
Verification of the forest repository's persistent content-addressed index
(`car_index`), its RPC permission constants and its key-address resolution
helpers.  The visible source exposes `KeyValuePair` (src/utils/db/car_index/
key_value_pair.rs), the permission constants (src/auth/mod.rs) and the two
resolution helpers (vm/interpreter/src/default_runtime.rs).  The `Hash`
newtype and the Robin Hood `Table`, `Builder` and persisted layout are not
part of the visible source; they are modelled from the specification.
-/

namespace CarIndex

/-- Modelled from the spec: the `Hash` newtype (the Digest) that
`key_value_pair.rs` delegates to is not in the visible source.  A Digest is a
fixed-width unsigned integer derived from a content identifier; we model the
value as a `Nat` (the real width is 64 bits, which only matters for the
byte-level layout below). -/
structure Hash where
  val : Nat
  deriving DecidableEq, Repr

/-- Modelled from the spec: `bucket(digest, len) = digest mod len`. -/
def Hash.bucket (h : Hash) (len : Nat) : Nat :=
  h.val % len

/-- Modelled from the spec:
`distance(at, len) = (at + len - bucket(digest, len)) mod len`. -/
def Hash.distance (h : Hash) (p len : Nat) : Nat :=
  (p + len - h.val % len) % len

/-- FrameOffset is `u64` in the source; modelled as `Nat`. -/
abbrev FrameOffset := Nat

/-- Slot payload, from src/utils/db/car_index/key_value_pair.rs. -/
structure KeyValuePair where
  hash : Hash
  value : FrameOffset
  deriving DecidableEq, Repr

/-- Optimal offset for a hash with a given table length
(KeyValuePair::bucket delegates to Hash::bucket). -/
def KeyValuePair.bucket (kv : KeyValuePair) (len : Nat) : Nat :=
  kv.hash.bucket len

/-- Walking distance between `p` and the optimal location of `hash`
(KeyValuePair::distance delegates to Hash::distance). -/
def KeyValuePair.distance (kv : KeyValuePair) (p len : Nat) : Nat :=
  kv.hash.distance p len

/-- Modelled from the spec: the Table is a fixed-length sequence of slot
positions, each empty or holding a `KeyValuePair`.  Occupancy is modelled
directly with `Option` (the spec leaves the empty-marking strategy to the
implementer). -/
structure Table where
  slots : List (Option KeyValuePair)
  deriving DecidableEq, Repr

def Table.capacity (t : Table) : Nat :=
  t.slots.length

def Table.empty (cap : Nat) : Table :=
  ⟨List.replicate cap none⟩

def Table.occupiedCount (t : Table) : Nat :=
  (t.slots.filterMap id).length

/-- Modelled from the spec: the lookup scan.  Starting at the ideal bucket,
scan forward while the visited slot's displacement is at least the number of
probes taken so far; a digest match returns the offset; an empty slot or a
slot displaced strictly less than the probe count returns not-found.  `fuel`
is the number of remaining positions (the scan needs at most `len` probes). -/
def lookupFrom (slots : List (Option KeyValuePair)) (h : Hash)
    (pos probes fuel : Nat) : Option FrameOffset :=
  match fuel with
  | 0 => none
  | fuel' + 1 =>
    match slots[pos]? with
    | none => none
    | some none => none
    | some (some kv) =>
      if kv.hash = h then some kv.value
      else if kv.distance pos slots.length < probes then none
      else lookupFrom slots h ((pos + 1) % slots.length) (probes + 1) fuel'

/-- Modelled from the spec: `lookup(digest) -> Option<FrameOffset>`. -/
def Table.lookup (t : Table) (h : Hash) : Option FrameOffset :=
  lookupFrom t.slots h (h.bucket t.capacity) 0 t.capacity

/-- Modelled from the spec: the Robin Hood insertion walk.  At each visited
position: place into an empty slot; reject a duplicate digest (first writer
wins, the default policy); swap when the resident's current displacement is
strictly smaller than the candidate's, the evicted resident becoming the new
candidate; otherwise continue forward.  Returns `none` only on fuel
exhaustion, which cannot happen while an empty slot exists. -/
def insertFrom (slots : List (Option KeyValuePair)) (cand : KeyValuePair)
    (pos fuel : Nat) : Option (List (Option KeyValuePair)) :=
  match fuel with
  | 0 => none
  | fuel' + 1 =>
    match slots[pos]? with
    | none => none
    | some none => some (slots.set pos (some cand))
    | some (some r) =>
      if r.hash = cand.hash then some slots
      else if r.distance pos slots.length < cand.distance pos slots.length then
        insertFrom (slots.set pos (some cand)) r ((pos + 1) % slots.length) fuel'
      else
        insertFrom slots cand ((pos + 1) % slots.length) fuel'

/-- Insertion without the load-factor check. -/
def Table.insertRaw (t : Table) (kv : KeyValuePair) : Option Table :=
  (insertFrom t.slots kv (kv.bucket t.capacity) t.capacity).map Table.mk

/-- Modelled from the spec: resize allocates a table of doubled capacity and
reinserts every currently occupied slot by the same algorithm. -/
def Table.resize (t : Table) : Option Table :=
  (t.slots.filterMap id).foldlM Table.insertRaw
    (Table.empty (if t.capacity = 0 then 1 else 2 * t.capacity))

/-- Modelled from the spec: insertion that would exceed the load-factor
ceiling (0.9) first triggers a resize. -/
def Table.insert (t : Table) (kv : KeyValuePair) : Option Table :=
  if 10 * (t.occupiedCount + 1) ≥ 9 * t.capacity then
    match t.resize with
    | none => none
    | some t' => t'.insertRaw kv
  else
    t.insertRaw kv

/-- Modelled from the spec: the Builder folds the stream of entries into a
table by repeated insertion. -/
def Table.buildTable (cap : Nat) (es : List KeyValuePair) : Option Table :=
  es.foldlM Table.insert (Table.empty cap)

/-- Modelled from the spec: the backward shift after a removal.  Every
subsequent slot with nonzero displacement moves one position earlier, until
an empty slot or a zero-displacement slot is reached. -/
def shiftBack (slots : List (Option KeyValuePair)) (hole fuel : Nat) :
    List (Option KeyValuePair) :=
  match fuel with
  | 0 => slots
  | fuel' + 1 =>
    let nxt := (hole + 1) % slots.length
    match slots[nxt]? with
    | none => slots
    | some none => slots
    | some (some r) =>
      if r.distance nxt slots.length = 0 then slots
      else shiftBack ((slots.set hole (some r)).set nxt none) nxt fuel'

/-- Modelled from the spec: `remove(digest)` locates the digest by the same
scan as lookup, clears the slot on a match, and backward-shifts. -/
def removeFrom (slots : List (Option KeyValuePair)) (h : Hash)
    (pos probes fuel : Nat) : List (Option KeyValuePair) :=
  match fuel with
  | 0 => slots
  | fuel' + 1 =>
    match slots[pos]? with
    | none => slots
    | some none => slots
    | some (some kv) =>
      if kv.hash = h then shiftBack (slots.set pos none) pos slots.length
      else if kv.distance pos slots.length < probes then slots
      else removeFrom slots h ((pos + 1) % slots.length) (probes + 1) fuel'

def Table.remove (t : Table) (h : Hash) : Table :=
  ⟨removeFrom t.slots h (h.bucket t.capacity) 0 t.capacity⟩

def Table.removeAll (t : Table) (hs : List Hash) : Table :=
  hs.foldl Table.remove t

/-- Occupied entries of a slot array, in position order. -/
def entriesOf (slots : List (Option KeyValuePair)) : List KeyValuePair :=
  slots.filterMap id

/-- Position preceding `p` on the wrapping probe ring. -/
def predIdx (p len : Nat) : Nat :=
  (p + len - 1) % len

/-- Robin Hood invariant in adjacent form: an occupied slot displaced by
`d > 0` has an occupied predecessor displaced by at least `d - 1`.  Iterating
this yields the full probe-path property used by the lookup scan. -/
def RHInv (slots : List (Option KeyValuePair)) : Prop :=
  ∀ p kv, slots[p]? = some (some kv) →
    0 < kv.distance p slots.length →
    ∃ kv', slots[predIdx p slots.length]? = some (some kv') ∧
      kv.distance p slots.length ≤ kv'.distance (predIdx p slots.length) slots.length + 1

/-- Occupied slots carry pairwise-distinct digests. -/
def NodupHashes (slots : List (Option KeyValuePair)) : Prop :=
  ((entriesOf slots).map KeyValuePair.hash).Nodup

/-- Well-formedness of a table: Robin Hood invariant plus distinct digests. -/
def Table.WF (t : Table) : Prop :=
  RHInv t.slots ∧ NodupHashes t.slots

/-- Tables reachable by building: well-formed and never full except at the
tiny capacities 1 and 2, where a resize-and-insert step can fill the table. -/
def Table.RemOK (t : Table) : Prop :=
  t.WF ∧ (t.occupiedCount < t.capacity ∨ t.capacity ≤ 2)

/-- Modelled from the spec: error kinds of persisted-layout loading. -/
inductive CarIndexError where
  | IndexCorrupt
  | IndexTruncated
  deriving DecidableEq, Repr

/-- Modelled from the spec: the format-identifier magic constant (4 bytes). -/
def MAGIC : List Nat := [0x63, 0x61, 0x72, 0x49]

/-- Modelled from the spec: the layout version (2 bytes). -/
def VERSION : List Nat := [1, 0]

/-- Header width: 4 magic + 2 version + 8 capacity + 8 occupied count. -/
def headerWidth : Nat := 22

/-- Slot width: 1 occupancy flag + 8 digest + 8 offset. -/
def slotWidth : Nat := 17

/-- Little-endian encoding of `n` into `w` bytes. -/
def encodeLE (n w : Nat) : List Nat :=
  match w with
  | 0 => []
  | w' + 1 => n % 256 :: encodeLE (n / 256) w'

/-- Little-endian decoding of a byte list. -/
def decodeLE (bs : List Nat) : Nat :=
  match bs with
  | [] => 0
  | b :: rest => b + 256 * decodeLE rest

/-- Modelled from the spec: a slot serializes to a fixed-width record with an
explicit occupancy flag (the spec allows either a flag or a sentinel digest). -/
def serializeSlot (s : Option KeyValuePair) : List Nat :=
  match s with
  | none => 0 :: (encodeLE 0 8 ++ encodeLE 0 8)
  | some kv => 1 :: (encodeLE kv.hash.val 8 ++ encodeLE kv.value 8)

/-- Modelled from the spec: `serialize(table) -> bytes` writes the header
(magic, version, capacity, occupied count) followed by the slot array in
position order. -/
def Table.serialize (t : Table) : List Nat :=
  MAGIC ++ VERSION ++ encodeLE t.capacity 8 ++ encodeLE t.occupiedCount 8 ++
    (t.slots.map serializeSlot).flatten

def deserializeSlot (bs : List Nat) : Option KeyValuePair :=
  if bs.headD 0 = 1 then
    some ⟨⟨decodeLE ((bs.drop 1).take 8)⟩, decodeLE ((bs.drop 9).take 8)⟩
  else none

def deserializeSlots (bs : List Nat) (cap : Nat) : List (Option KeyValuePair) :=
  match cap with
  | 0 => []
  | c + 1 => deserializeSlot (bs.take slotWidth) :: deserializeSlots (bs.drop slotWidth) c

/-- Modelled from the spec: `deserialize(bytes) -> Table` validates the magic
and version (`IndexCorrupt` on mismatch), validates that the byte length
equals `header + capacity * slot_width` (`IndexTruncated` otherwise), and
reinterprets the slot array directly. -/
def deserialize (bs : List Nat) : Except CarIndexError Table :=
  if bs.take 6 = MAGIC ++ VERSION then
    if bs.length = headerWidth + decodeLE ((bs.drop 6).take 8) * slotWidth then
      Except.ok ⟨deserializeSlots (bs.drop headerWidth) (decodeLE ((bs.drop 6).take 8))⟩
    else Except.error CarIndexError.IndexTruncated
  else Except.error CarIndexError.IndexCorrupt

end CarIndex

namespace Auth

/-- Admin permissions (src/auth/mod.rs). -/
def ADMIN : List String := ["read", "write", "sign", "admin"]

/-- Signing permissions (src/auth/mod.rs). -/
def SIGN : List String := ["read", "write", "sign"]

/-- Writing permissions (src/auth/mod.rs). -/
def WRITE : List String := ["read", "write"]

/-- Reading permissions (src/auth/mod.rs). -/
def READ : List String := ["read"]

end Auth

namespace Interpreter

/-- Address protocols, from forest_address (only the four variants matter). -/
inductive Protocol where
  | ID
  | Secp256k1
  | Actor
  | BLS
  deriving DecidableEq, Repr

/-- An address; the payload is opaque for these claims. -/
structure Address where
  protocol : Protocol
  payload : List Nat
  deriving DecidableEq, Repr

/-- An actor record fetched from a state tree; opaque for these claims. -/
structure ActorState where
  code : Nat
  head : Nat
  deriving DecidableEq, Repr

/-- An account actor state; exposes its public-key address. -/
structure AccountState where
  pubkeyAddress : Address
  deriving DecidableEq, Repr

/-- From vm/interpreter/src/default_runtime.rs: `resolve_to_key_addr`.  The
state tree is modelled as its `get_actor` operation and the store as the
`account::State::load` operation. -/
def resolve_to_key_addr (st : Address → Except String (Option ActorState))
    (store : ActorState → Except String AccountState) (addr : Address) :
    Except String Address :=
  if addr.protocol = Protocol.BLS ∨ addr.protocol = Protocol.Secp256k1 then
    Except.ok addr
  else
    match st addr with
    | Except.error e => Except.error e
    | Except.ok none => Except.error "Failed to retrieve actor"
    | Except.ok (some act) =>
      match store act with
      | Except.error e => Except.error e
      | Except.ok accSt => Except.ok accSt.pubkeyAddress

/-- From vm/interpreter/src/default_runtime.rs: `fvm_resolve_to_key_addr`,
textually the same algorithm over the FVM state tree. -/
def fvm_resolve_to_key_addr (st : Address → Except String (Option ActorState))
    (store : ActorState → Except String AccountState) (addr : Address) :
    Except String Address :=
  if addr.protocol = Protocol.BLS ∨ addr.protocol = Protocol.Secp256k1 then
    Except.ok addr
  else
    match st addr with
    | Except.error e => Except.error e
    | Except.ok none => Except.error "Failed to retrieve actor"
    | Except.ok (some act) =>
      match store act with
      | Except.error e => Except.error e
      | Except.ok accSt => Except.ok accSt.pubkeyAddress

end Interpreter

/-! ## Theorems -/

namespace CarIndex

theorem bucket_lt {h : Hash} {len : Nat} (hlen : 0 < len) : h.bucket len < len :=
  Nat.mod_lt _ hlen

theorem distance_lt {h : Hash} {p len : Nat} (hlen : 0 < len) : h.distance p len < len :=
  Nat.mod_lt _ hlen

theorem distance_at_bucket (h : Hash) (len : Nat) :
    h.distance (h.bucket len) len = 0 := by
  unfold Hash.distance Hash.bucket
  rw [Nat.add_comm, Nat.add_sub_cancel, Nat.mod_self]

end CarIndex

namespace CarIndex

/-- Claim C2: for every digest and every table length `len > 0`, the bucket
helper returns `digest mod len` and the distance helper returns
`(at + len - digest mod len) mod len`; both are pure functions of their
integer arguments (entries with equal digests get equal buckets and
distances). -/
theorem c2_bucket_distance (kv : KeyValuePair) (p len : Nat) (_hlen : 0 < len) :
    kv.bucket len = kv.hash.val % len ∧
    kv.distance p len = (p + len - kv.hash.val % len) % len ∧
    (∀ kv' : KeyValuePair, kv'.hash = kv.hash →
      kv'.bucket len = kv.bucket len ∧ kv'.distance p len = kv.distance p len) :=
  ⟨rfl, rfl, fun kv' h => by
    simp [KeyValuePair.bucket, KeyValuePair.distance, h]⟩

/-- Witness for C2 at a concrete input. -/
theorem c2_bucket_distance_witness :
    (KeyValuePair.mk ⟨7⟩ 3).bucket 4 = (7 : Nat) % 4 ∧
    (KeyValuePair.mk ⟨7⟩ 3).distance 2 4 = (2 + 4 - 7 % 4) % 4 ∧
    (∀ kv' : KeyValuePair, kv'.hash = Hash.mk 7 →
      kv'.bucket 4 = (KeyValuePair.mk ⟨7⟩ 3).bucket 4 ∧
      kv'.distance 2 4 = (KeyValuePair.mk ⟨7⟩ 3).distance 2 4) :=
  c2_bucket_distance ⟨⟨7⟩, 3⟩ 2 4 (by decide)

/-- Claim C4: in a table of capacity 4, inserting digests with buckets 1, 1, 2
in that order leaves slot 0 empty, d1 in slot 1 with displacement 0, d2 in
slot 2 with displacement 1 and d3 in slot 3 with displacement 1; a subsequent
lookup of d2 probes slot 1 (digest mismatch, displacement 0 ≥ 0 probes, so it
continues) and then hits in slot 2. -/
theorem c4_concrete_scenario (d1 d2 d3 o1 o2 o3 : Nat) (h1 : d1 % 4 = 1)
    (h2 : d2 % 4 = 1) (h3 : d3 % 4 = 2) (h12 : d1 ≠ d2) :
    ∃ t : Table,
      Table.buildTable 4 [⟨⟨d1⟩, o1⟩, ⟨⟨d2⟩, o2⟩, ⟨⟨d3⟩, o3⟩] = some t ∧
      t.slots = [none, some ⟨⟨d1⟩, o1⟩, some ⟨⟨d2⟩, o2⟩, some ⟨⟨d3⟩, o3⟩] ∧
      Hash.distance ⟨d1⟩ 1 4 = 0 ∧ Hash.distance ⟨d2⟩ 2 4 = 1 ∧
      Hash.distance ⟨d3⟩ 3 4 = 1 ∧
      Hash.bucket ⟨d2⟩ t.capacity = 1 ∧
      t.slots[1]? = some (some ⟨⟨d1⟩, o1⟩) ∧
      lookupFrom t.slots ⟨d2⟩ 2 1 3 = some o2 ∧
      t.lookup ⟨d2⟩ = some o2 := by
  have h13 : d1 ≠ d3 := fun h => by rw [h, h3] at h1; exact absurd h1 (by decide)
  have h23 : d2 ≠ d3 := fun h => by rw [h, h3] at h2; exact absurd h2 (by decide)
  refine ⟨⟨[none, some ⟨⟨d1⟩, o1⟩, some ⟨⟨d2⟩, o2⟩, some ⟨⟨d3⟩, o3⟩]⟩, ?_, rfl,
    ?_, ?_, ?_, ?_, rfl, ?_, ?_⟩
  · simp [Table.buildTable, Table.insert, Table.empty, Table.occupiedCount,
      Table.capacity, Table.insertRaw, Table.resize, KeyValuePair.bucket,
      Hash.bucket, insertFrom, KeyValuePair.distance, Hash.distance,
      List.foldlM, h1, h2, h3, h12, h13, h23, Hash.mk.injEq,
      KeyValuePair.mk.injEq]
  · simp [Hash.distance, h1]
  · simp [Hash.distance, h2]
  · simp [Hash.distance, h3]
  · simp [Hash.bucket, Table.capacity, h2]
  · simp [lookupFrom, KeyValuePair.distance, Hash.distance, h2, Hash.mk.injEq]
  · simp [Table.lookup, Table.capacity, Hash.bucket, lookupFrom, h2,
      KeyValuePair.distance, Hash.distance, h1, Hash.mk.injEq,
      (fun h => h12 h.symm : ¬d2 = d1)]
    exact fun h => absurd h h12

/-- Witness for C4 at the concrete digests 1, 5, 2. -/
theorem c4_concrete_scenario_witness :
    ∃ t : Table,
      Table.buildTable 4 [⟨⟨1⟩, 10⟩, ⟨⟨5⟩, 20⟩, ⟨⟨2⟩, 30⟩] = some t ∧
      t.slots = [none, some ⟨⟨1⟩, 10⟩, some ⟨⟨5⟩, 20⟩, some ⟨⟨2⟩, 30⟩] ∧
      Hash.distance ⟨1⟩ 1 4 = 0 ∧ Hash.distance ⟨5⟩ 2 4 = 1 ∧
      Hash.distance ⟨2⟩ 3 4 = 1 ∧
      Hash.bucket ⟨5⟩ t.capacity = 1 ∧
      t.slots[1]? = some (some ⟨⟨1⟩, 10⟩) ∧
      lookupFrom t.slots ⟨5⟩ 2 1 3 = some 20 ∧
      t.lookup ⟨5⟩ = some 20 :=
  c4_concrete_scenario 1 5 2 10 20 30 (by decide) (by decide) (by decide) (by decide)

/-- Claim C5 counterexample: the same two-entry set, inserted in the two
possible orders into a capacity-4 table, yields two different assignments of
entries to slot positions (the entries tie on displacement at bucket 0, and
the resident always wins the tie, so the first-inserted digest keeps slot 0). -/
theorem c5_counterexample :
    Table.buildTable 4 [⟨⟨0⟩, 10⟩, ⟨⟨4⟩, 20⟩] =
      some ⟨[some ⟨⟨0⟩, 10⟩, some ⟨⟨4⟩, 20⟩, none, none]⟩ ∧
    Table.buildTable 4 [⟨⟨4⟩, 20⟩, ⟨⟨0⟩, 10⟩] =
      some ⟨[some ⟨⟨4⟩, 20⟩, some ⟨⟨0⟩, 10⟩, none, none]⟩ ∧
    Table.buildTable 4 [⟨⟨0⟩, 10⟩, ⟨⟨4⟩, 20⟩] ≠
      Table.buildTable 4 [⟨⟨4⟩, 20⟩, ⟨⟨0⟩, 10⟩] := by
  decide

end CarIndex

/-- Claim C10: the four RPC permission constants form a chain in which each
level extends the one below by exactly one capability, so every permission
granted at a lower level is granted at every higher level, and each step of
the chain is strict. -/
theorem c10_permission_chain :
    Auth.READ = ["read"] ∧
    Auth.WRITE = Auth.READ ++ ["write"] ∧
    Auth.SIGN = Auth.WRITE ++ ["sign"] ∧
    Auth.ADMIN = Auth.SIGN ++ ["admin"] ∧
    (∀ p ∈ Auth.READ, p ∈ Auth.WRITE) ∧
    (∀ p ∈ Auth.WRITE, p ∈ Auth.SIGN) ∧
    (∀ p ∈ Auth.SIGN, p ∈ Auth.ADMIN) ∧
    "write" ∉ Auth.READ ∧ "sign" ∉ Auth.WRITE ∧ "admin" ∉ Auth.SIGN := by
  decide

/-- Claim C9: for every address whose protocol is BLS or Secp256k1, both
resolution helpers return the address unchanged, whatever the state tree and
the store answer (they are never consulted). -/
theorem c9_resolve_to_key_addr_id (addr : Interpreter.Address)
    (h : addr.protocol = Interpreter.Protocol.BLS ∨
      addr.protocol = Interpreter.Protocol.Secp256k1) :
    ∀ st store st' store',
      Interpreter.resolve_to_key_addr st store addr = Except.ok addr ∧
      Interpreter.fvm_resolve_to_key_addr st' store' addr = Except.ok addr := by
  intro st store st' store'
  unfold Interpreter.resolve_to_key_addr Interpreter.fvm_resolve_to_key_addr
  rw [if_pos h, if_pos h]
  exact ⟨rfl, rfl⟩

/-- Witness for C9 at a concrete BLS address and failing oracles. -/
theorem c9_resolve_to_key_addr_id_witness :
    Interpreter.resolve_to_key_addr (fun _ => Except.error "e")
        (fun _ => Except.error "e") ⟨Interpreter.Protocol.BLS, []⟩ =
      Except.ok ⟨Interpreter.Protocol.BLS, []⟩ ∧
    Interpreter.fvm_resolve_to_key_addr (fun _ => Except.error "e")
        (fun _ => Except.error "e") ⟨Interpreter.Protocol.BLS, []⟩ =
      Except.ok ⟨Interpreter.Protocol.BLS, []⟩ :=
  c9_resolve_to_key_addr_id ⟨Interpreter.Protocol.BLS, []⟩ (Or.inl rfl) _ _ _ _

/-! ### Ring-arithmetic helpers for the wrapping probe sequence -/

namespace CarIndex

theorem bucket_add_distance (h : Hash) {p len : Nat} (hp : p < len) :
    (h.val % len + h.distance p len) % len = p := by
  have hlen : 0 < len := Nat.lt_of_le_of_lt (Nat.zero_le p) hp
  have hb : h.val % len ≤ len := le_of_lt (Nat.mod_lt _ hlen)
  unfold Hash.distance
  rw [Nat.add_mod_mod]
  have e : h.val % len + (p + len - h.val % len) = p + len := by omega
  rw [e, Nat.add_mod_right, Nat.mod_eq_of_lt hp]

theorem distance_probe (h : Hash) {len : Nat} (hlen : 0 < len) {j : Nat} (hj : j < len) :
    h.distance ((h.val % len + j) % len) len = j := by
  have hb : h.val % len < len := Nat.mod_lt _ hlen
  unfold Hash.distance
  have e1 : (h.val % len + j) % len + len - h.val % len
      = (h.val % len + j) % len + (len - h.val % len) := by omega
  rw [e1, Nat.mod_add_mod]
  have e2 : h.val % len + j + (len - h.val % len) = j + len := by omega
  rw [e2, Nat.add_mod_right, Nat.mod_eq_of_lt hj]

theorem distance_succ (h : Hash) {len : Nat} (hlen : 0 < len) (pos : Nat) :
    h.distance ((pos + 1) % len) len = (h.distance pos len + 1) % len := by
  have hb : h.val % len < len := Nat.mod_lt _ hlen
  unfold Hash.distance
  have e1 : (pos + 1) % len + len - h.val % len
      = (pos + 1) % len + (len - h.val % len) := by omega
  rw [e1, Nat.mod_add_mod]
  have e2 : pos + 1 + (len - h.val % len) = pos + len - h.val % len + 1 := by omega
  rw [e2, ← Nat.mod_add_mod]

theorem succ_probe_idx {b j len : Nat} :
    ((b + j) % len + 1) % len = (b + (j + 1)) % len := by
  rw [Nat.mod_add_mod, Nat.add_assoc]

theorem predIdx_succ {len : Nat} {pos : Nat} (hpos : pos < len) :
    predIdx ((pos + 1) % len) len = pos := by
  have hlen : 0 < len := Nat.lt_of_le_of_lt (Nat.zero_le pos) hpos
  unfold predIdx
  have e1 : (pos + 1) % len + len - 1 = (pos + 1) % len + (len - 1) := by omega
  rw [e1, Nat.mod_add_mod]
  have e2 : pos + 1 + (len - 1) = pos + len := by omega
  rw [e2, Nat.add_mod_right, Nat.mod_eq_of_lt hpos]

theorem predIdx_sub {len q k : Nat} (hq : q < len) (hk : k + 1 ≤ len) :
    predIdx ((q + len - k) % len) len = (q + len - (k + 1)) % len := by
  unfold predIdx
  have e1 : (q + len - k) % len + len - 1 = (q + len - k) % len + (len - 1) := by omega
  rw [e1, Nat.mod_add_mod]
  have e2 : q + len - k + (len - 1) = (q + len - (k + 1)) + len := by omega
  rw [e2, Nat.add_mod_right]

theorem probe_pos (h : Hash) {p len : Nat} (hp : p < len) {k : Nat}
    (hk : k ≤ h.distance p len) :
    (p + len - (h.distance p len - k)) % len = (h.val % len + k) % len := by
  have hlen : 0 < len := Nat.lt_of_le_of_lt (Nat.zero_le p) hp
  have hd : h.distance p len < len := Nat.mod_lt _ hlen
  have hpd : (h.val % len + h.distance p len) % len = p := bucket_add_distance h hp
  generalize hg : h.distance p len = d at hpd hk hd ⊢
  subst hpd
  have e1 : (h.val % len + d) % len + len - (d - k)
      = (h.val % len + d) % len + (len - (d - k)) := by omega
  rw [e1, Nat.mod_add_mod]
  have e2 : h.val % len + d + (len - (d - k)) = (h.val % len + k) + len := by omega
  rw [e2, Nat.add_mod_right]

theorem window_shift {pos j len : Nat} (hj : 0 < j) :
    ((pos + 1) % len + (j - 1)) % len = (pos + j) % len := by
  rw [Nat.mod_add_mod]
  have e : pos + 1 + (j - 1) = pos + j := by omega
  rw [e]

theorem probe_ne_of_lt {b j d len : Nat} (hlen : 0 < len) (hj : j < len) (hd : d < len)
    (hne : j ≠ d) (h : Hash) (hb : b = h.val % len) : (b + j) % len ≠ (b + d) % len := by
  intro heq
  subst hb
  have h1 : h.distance ((h.val % len + j) % len) len = j := distance_probe h hlen hj
  have h2 : h.distance ((h.val % len + d) % len) len = d := distance_probe h hlen hd
  rw [heq, h2] at h1
  exact hne h1.symm


end CarIndex

/-! ### Slot-array helpers -/

namespace CarIndex

theorem entriesOf_cons (o : Option KeyValuePair) (tl : List (Option KeyValuePair)) :
    entriesOf (o :: tl) = o.toList ++ entriesOf tl := by
  cases o <;> simp [entriesOf, Option.toList]

theorem entriesOf_nil : entriesOf [] = [] := rfl

theorem pos_lt_of_getElem {slots : List (Option KeyValuePair)} {p : Nat}
    {o : Option KeyValuePair} (h : slots[p]? = some o) : p < slots.length :=
  (List.getElem?_eq_some.mp h).1

theorem len_pos_of_getElem {slots : List (Option KeyValuePair)} {p : Nat}
    {o : Option KeyValuePair} (h : slots[p]? = some o) : 0 < slots.length :=
  Nat.lt_of_le_of_lt (Nat.zero_le p) (pos_lt_of_getElem h)

theorem mem_entriesOf_iff {slots : List (Option KeyValuePair)} {kv : KeyValuePair} :
    kv ∈ entriesOf slots ↔ some kv ∈ slots := by
  simp [entriesOf, List.mem_filterMap]

theorem mem_entriesOf_of_getElem {slots : List (Option KeyValuePair)} {p : Nat}
    {kv : KeyValuePair} (h : slots[p]? = some (some kv)) : kv ∈ entriesOf slots :=
  mem_entriesOf_iff.mpr (List.getElem?_mem h)

theorem hash_mem_of_getElem {slots : List (Option KeyValuePair)} {p : Nat}
    {kv : KeyValuePair} (h : slots[p]? = some (some kv)) :
    kv.hash ∈ (entriesOf slots).map KeyValuePair.hash :=
  List.mem_map_of_mem _ (mem_entriesOf_of_getElem h)

/-- Occupied slots with equal digests sit at equal positions when the digest
list is duplicate-free. -/
theorem hash_pos_inj {slots : List (Option KeyValuePair)} (hnd : NodupHashes slots)
    {p q : Nat} {kvp kvq : KeyValuePair} (hp : slots[p]? = some (some kvp))
    (hq : slots[q]? = some (some kvq)) (hh : kvp.hash = kvq.hash) : p = q := by
  induction slots generalizing p q with
  | nil => simp at hp
  | cons hd tl ih =>
    have hnd0 : ((List.map KeyValuePair.hash hd.toList) ++
        (List.map KeyValuePair.hash (entriesOf tl))).Nodup := by
      have h0 := hnd
      unfold NodupHashes at h0
      rwa [entriesOf_cons, List.map_append] at h0
    have hnd' : NodupHashes tl := (List.nodup_append.mp hnd0).2.1
    have hdisj := List.disjoint_of_nodup_append hnd0
    match p, q with
    | 0, 0 => rfl
    | 0, q + 1 =>
      exfalso
      simp only [List.getElem?_cons_zero, Option.some.injEq] at hp
      simp only [List.getElem?_cons_succ] at hq
      subst hp
      refine hdisj (a := kvp.hash) (by simp [Option.toList]) ?_
      rw [hh]
      exact hash_mem_of_getElem hq
    | p + 1, 0 =>
      exfalso
      simp only [List.getElem?_cons_zero, Option.some.injEq] at hq
      simp only [List.getElem?_cons_succ] at hp
      subst hq
      refine hdisj (a := kvq.hash) (by simp [Option.toList]) ?_
      rw [← hh]
      exact hash_mem_of_getElem hp
    | p + 1, q + 1 =>
      simp only [List.getElem?_cons_succ] at hp hq
      exact congrArg Nat.succ (ih hnd' hp hq)

/-- Replacing the contents of one slot exchanges exactly that slot's
contribution to the occupied-entry multiset. -/
theorem entriesOf_set {slots : List (Option KeyValuePair)} {pos : Nat}
    {o : Option KeyValuePair} (h : slots[pos]? = some o) (o' : Option KeyValuePair) :
    (entriesOf (slots.set pos o') : Multiset KeyValuePair) + (o.toList : Multiset _) =
      (entriesOf slots : Multiset KeyValuePair) + (o'.toList : Multiset _) := by
  induction slots generalizing pos with
  | nil => simp at h
  | cons hd tl ih =>
    match pos with
    | 0 =>
      simp only [List.getElem?_cons_zero, Option.some.injEq] at h
      subst h
      rw [List.set_cons_zero, entriesOf_cons, entriesOf_cons]
      simp only [← Multiset.coe_add]
      abel
    | pos + 1 =>
      simp only [List.getElem?_cons_succ] at h
      rw [List.set_cons_succ, entriesOf_cons, entriesOf_cons]
      simp only [← Multiset.coe_add]
      rw [add_assoc, add_assoc, ih h]

theorem exists_empty_of_occ_lt {slots : List (Option KeyValuePair)}
    (h : (entriesOf slots).length < slots.length) :
    ∃ i : Nat, slots[i]? = some none := by
  induction slots with
  | nil => simp at h
  | cons hd tl ih =>
    cases hd with
    | none => exact ⟨0, by simp⟩
    | some a =>
      rw [entriesOf_cons] at h
      simp only [Option.toList, List.length_append, List.length_cons,
        List.length_singleton] at h
      have : (entriesOf tl).length < tl.length := by
        simp at h; omega
      obtain ⟨i, hi⟩ := ih this
      refine ⟨i + 1, ?_⟩
      simpa using hi

theorem window_of_empty {slots : List (Option KeyValuePair)} {pos : Nat}
    (hpos : pos < slots.length) {i : Nat} (hi : slots[i]? = some none) :
    ∃ j : Nat, j < slots.length ∧ slots[(pos + j) % slots.length]? = some none := by
  have hil : i < slots.length := pos_lt_of_getElem hi
  have hlen : 0 < slots.length := Nat.lt_of_le_of_lt (Nat.zero_le pos) hpos
  refine ⟨(i + slots.length - pos) % slots.length, Nat.mod_lt _ hlen, ?_⟩
  have e : (pos + (i + slots.length - pos) % slots.length) % slots.length = i := by
    rw [Nat.add_mod_mod]
    have e2 : pos + (i + slots.length - pos) = i + slots.length := by omega
    rw [e2, Nat.add_mod_right, Nat.mod_eq_of_lt hil]
  rw [e]
  exact hi

end CarIndex

/-! ### Insertion walk: invariant preservation -/

namespace CarIndex

theorem insertFrom_succ (slots : List (Option KeyValuePair)) (cand : KeyValuePair)
    (pos f : Nat) :
    insertFrom slots cand pos (f + 1) =
      match slots[pos]? with
      | none => none
      | some none => some (slots.set pos (some cand))
      | some (some r) =>
        if r.hash = cand.hash then some slots
        else if r.distance pos slots.length < cand.distance pos slots.length then
          insertFrom (slots.set pos (some cand)) r ((pos + 1) % slots.length) f
        else insertFrom slots cand ((pos + 1) % slots.length) f := rfl

theorem lookupFrom_succ (slots : List (Option KeyValuePair)) (h : Hash)
    (pos probes f : Nat) :
    lookupFrom slots h pos probes (f + 1) =
      match slots[pos]? with
      | none => none
      | some none => none
      | some (some kv) =>
        if kv.hash = h then some kv.value
        else if kv.distance pos slots.length < probes then none
        else lookupFrom slots h ((pos + 1) % slots.length) (probes + 1) f := rfl

theorem add_mod_ne_self {pos j len : Nat} (hpos : pos < len) (h0 : 0 < j)
    (hj : j < len) : (pos + j) % len ≠ pos := by
  intro heq
  by_cases hlt : pos + j < len
  · rw [Nat.mod_eq_of_lt hlt] at heq
    omega
  · have h2 : (pos + j) % len = (pos + j - len) % len :=
      Nat.mod_eq_sub_mod (by omega)
    have h3 : pos + j - len < len := by omega
    rw [h2, Nat.mod_eq_of_lt h3] at heq
    omega

/-- Placing a candidate into a slot that is empty or holds a strictly less
displaced resident preserves the Robin Hood invariant, provided the
candidate's own predecessor condition holds. -/
theorem rhinv_set {slots : List (Option KeyValuePair)} (hrh : RHInv slots)
    {pos : Nat} {cand : KeyValuePair} (hpos : pos < slots.length)
    (ho : slots[pos]? = some none ∨
      ∃ r, slots[pos]? = some (some r) ∧
        r.distance pos slots.length < cand.distance pos slots.length)
    (hpc : 0 < cand.distance pos slots.length →
      ∃ kv', slots[predIdx pos slots.length]? = some (some kv') ∧
        cand.distance pos slots.length ≤
          kv'.distance (predIdx pos slots.length) slots.length + 1) :
    RHInv (slots.set pos (some cand)) := by
  intro q kv hq hd0
  rw [List.length_set] at hd0 ⊢
  by_cases hqp : q = pos
  · subst hqp
    rw [List.getElem?_set_eq_of_lt _ hpos] at hq
    have hck : cand = kv := by
      injection hq with h1
      injection h1
    subst hck
    by_cases hpp : predIdx q slots.length = q
    · refine ⟨cand, ?_, ?_⟩
      · rw [hpp, List.getElem?_set_eq_of_lt _ hpos]
      · rw [hpp]
        exact Nat.le_succ _
    · obtain ⟨kv', hkv', hb⟩ := hpc hd0
      refine ⟨kv', ?_, hb⟩
      rw [List.getElem?_set_ne (fun hh => hpp hh.symm)]
      exact hkv'
  · rw [List.getElem?_set_ne (fun hh => hqp hh.symm)] at hq
    by_cases hpq : predIdx q slots.length = pos
    · obtain ⟨kv', hkv', hb⟩ := hrh q kv hq hd0
      rw [hpq] at hkv'
      rcases ho with hemp | ⟨r, hr, hlt⟩
      · rw [hemp] at hkv'
        simp at hkv'
      · rw [hr] at hkv'
        have hrk : r = kv' := by
          injection hkv' with h1
          injection h1
      
        subst hrk
        refine ⟨cand, ?_, ?_⟩
        · rw [hpq, List.getElem?_set_eq_of_lt _ hpos]
        · rw [hpq] at hb ⊢
          omega
    · obtain ⟨kv', hkv', hb⟩ := hrh q kv hq hd0
      refine ⟨kv', ?_, hb⟩
      rw [List.getElem?_set_ne (fun hh => hpq hh.symm)]
      exact hkv'

/-- After a Robin Hood swap the evicted resident's digest is no longer among
the stored digests, and the stored digests stay duplicate-free. -/
theorem swap_fresh_helper {E E' : Multiset KeyValuePair} {r c : KeyValuePair}
    (heq : E' + {r} = E + {c})
    (hnd : (E.map KeyValuePair.hash).Nodup)
    (hfresh : c.hash ∉ E.map KeyValuePair.hash)
    (hrE : r ∈ E) :
    (E'.map KeyValuePair.hash).Nodup ∧ r.hash ∉ E'.map KeyValuePair.hash := by
  have hrc : r.hash ≠ c.hash := by
    intro he
    exact hfresh (he ▸ Multiset.mem_map_of_mem KeyValuePair.hash hrE)
  have hmap : E'.map KeyValuePair.hash + {r.hash} = E.map KeyValuePair.hash + {c.hash} := by
    have h0 := congrArg (Multiset.map KeyValuePair.hash) heq
    simpa using h0
  have hcount : ∀ x : Hash, (E'.map KeyValuePair.hash).count x
      + (({r.hash} : Multiset Hash).count x)
      = (E.map KeyValuePair.hash).count x + (({c.hash} : Multiset Hash).count x) := by
    intro x
    rw [← Multiset.count_add, ← Multiset.count_add, hmap]
  have hEr : (E.map KeyValuePair.hash).count r.hash = 1 :=
    Multiset.count_eq_one_of_mem hnd (Multiset.mem_map_of_mem _ hrE)
  have hEc : (E.map KeyValuePair.hash).count c.hash = 0 :=
    Multiset.count_eq_zero.mpr hfresh
  have hnotmem : r.hash ∉ E'.map KeyValuePair.hash := by
    rw [← Multiset.count_eq_zero]
    have hx := hcount r.hash
    simp [Multiset.count_singleton, hrc] at hx
    omega
  refine ⟨?_, hnotmem⟩
  rw [Multiset.nodup_iff_count_le_one] at hnd ⊢
  intro x
  have hx := hcount x
  rw [Multiset.count_singleton, Multiset.count_singleton] at hx
  by_cases h1 : x = r.hash
  · rw [← Multiset.count_eq_zero] at hnotmem
    rw [h1, hnotmem]
    omega
  · by_cases h2 : x = c.hash
    · subst h2
      rw [if_neg h1, if_pos rfl, hEc] at hx
      omega
    · rw [if_neg h1, if_neg h2] at hx
      have h3 := hnd x
      omega

end CarIndex

namespace CarIndex

theorem coe_entries_set_none {slots : List (Option KeyValuePair)} {pos : Nat}
    (ho : slots[pos]? = some none) (c : KeyValuePair) :
    (entriesOf (slots.set pos (some c)) : Multiset KeyValuePair)
      = c ::ₘ (entriesOf slots : Multiset KeyValuePair) := by
  have h1 := entriesOf_set ho (some c)
  simp only [Option.toList] at h1
  rw [show (([] : List KeyValuePair) : Multiset KeyValuePair) = 0 from rfl, add_zero] at h1
  rw [h1, show (([c] : List KeyValuePair) : Multiset KeyValuePair) = ({c} : Multiset _) from rfl,
    add_comm, Multiset.singleton_add]

theorem coe_entries_set_some {slots : List (Option KeyValuePair)} {pos : Nat}
    {r : KeyValuePair} (ho : slots[pos]? = some (some r)) (o' : Option KeyValuePair) :
    (entriesOf (slots.set pos o') : Multiset KeyValuePair) + {r}
      = (entriesOf slots : Multiset KeyValuePair) + (o'.toList : Multiset _) := by
  have h1 := entriesOf_set ho o'
  simp only [Option.toList] at h1
  rwa [show (([r] : List KeyValuePair) : Multiset KeyValuePair) = ({r} : Multiset _) from rfl] at h1

end CarIndex

namespace CarIndex

/-- Main specification of the Robin Hood insertion walk: under the invariants
and with a reachable empty slot, the walk succeeds, preserves length and the
Robin Hood invariant, and adds exactly the candidate to the entry multiset. -/
theorem insertFrom_spec :
    ∀ (fuel : Nat) (slots : List (Option KeyValuePair)) (cand : KeyValuePair) (pos : Nat),
    pos < slots.length →
    fuel ≤ slots.length →
    (∃ j : Nat, j < fuel ∧ slots[(pos + j) % slots.length]? = some none) →
    RHInv slots →
    NodupHashes slots →
    cand.hash ∉ (entriesOf slots).map KeyValuePair.hash →
    (0 < cand.distance pos slots.length →
      ∃ kv', slots[predIdx pos slots.length]? = some (some kv') ∧
        cand.distance pos slots.length ≤
          kv'.distance (predIdx pos slots.length) slots.length + 1) →
    ∃ out, insertFrom slots cand pos fuel = some out ∧
      out.length = slots.length ∧ RHInv out ∧
      (entriesOf out : Multiset KeyValuePair)
        = cand ::ₘ (entriesOf slots : Multiset KeyValuePair) := by
  intro fuel
  induction fuel with
  | zero =>
    intro slots cand pos _ _ hwin _ _ _ _
    obtain ⟨j, hj, _⟩ := hwin
    omega
  | succ f ih =>
    intro slots cand pos hpos hfuel hwin hrh hnd hfresh hpc
    have hlen : 0 < slots.length := Nat.lt_of_le_of_lt (Nat.zero_le pos) hpos
    obtain ⟨o, ho⟩ : ∃ o, slots[pos]? = some o :=
      ⟨slots[pos], List.getElem?_eq_getElem hpos⟩
    cases o with
    | none =>
      refine ⟨slots.set pos (some cand), ?_, List.length_set .., ?_, ?_⟩
      · rw [insertFrom_succ, ho]
      · exact rhinv_set hrh hpos (Or.inl ho) hpc
      · exact coe_entries_set_none ho cand
    | some r =>
      by_cases hdup : r.hash = cand.hash
      · exfalso
        apply hfresh
        rw [← hdup]
        exact hash_mem_of_getElem ho
      · have hwin0 : ∀ j : Nat, j < f + 1 →
            slots[(pos + j) % slots.length]? = some none → 0 < j := by
          intro j _ hemp
          rcases Nat.eq_zero_or_pos j with h0 | h0
          · subst h0
            rw [Nat.add_zero, Nat.mod_eq_of_lt hpos, ho] at hemp
            exact absurd hemp (by simp)
          · exact h0
        by_cases hswap : r.distance pos slots.length < cand.distance pos slots.length
        · -- swap: the candidate takes this slot and the resident continues
          have hlen' : (slots.set pos (some cand)).length = slots.length :=
            List.length_set ..
          have hEswap : (entriesOf (slots.set pos (some cand)) : Multiset KeyValuePair)
              + {r} = (entriesOf slots : Multiset KeyValuePair) + {cand} := by
            have h1 := coe_entries_set_some ho (some cand)
            simp only [Option.toList] at h1
            rwa [show (([cand] : List KeyValuePair) : Multiset KeyValuePair)
              = ({cand} : Multiset _) from rfl] at h1
          have hrmem : r ∈ entriesOf slots := mem_entriesOf_of_getElem ho
          have hmnd : ((entriesOf slots : Multiset KeyValuePair).map
              KeyValuePair.hash).Nodup := by
            rw [Multiset.map_coe, Multiset.coe_nodup]
            exact hnd
          have hmfresh : cand.hash ∉ (entriesOf slots : Multiset KeyValuePair).map
              KeyValuePair.hash := by
            rw [Multiset.map_coe]
            exact fun hmem => hfresh (Multiset.mem_coe.mp hmem)
          obtain ⟨hnd', hfresh'⟩ :=
            swap_fresh_helper hEswap hmnd hmfresh (Multiset.mem_coe.mpr hrmem)
          have hndl : NodupHashes (slots.set pos (some cand)) := by
            unfold NodupHashes
            rw [← Multiset.coe_nodup, ← Multiset.map_coe]
            exact hnd'
          have hfreshl : r.hash ∉ (entriesOf (slots.set pos (some cand))).map
              KeyValuePair.hash := by
            intro hmem
            apply hfresh'
            rw [Multiset.map_coe]
            exact Multiset.mem_coe.mpr hmem
          have hpos' : (pos + 1) % slots.length < (slots.set pos (some cand)).length := by
            rw [hlen']
            exact Nat.mod_lt _ hlen
          have hfuel' : f ≤ (slots.set pos (some cand)).length := by
            rw [hlen']
            omega
          have hwin' : ∃ j : Nat, j < f ∧
              (slots.set pos (some cand))[((pos + 1) % slots.length + j) %
                (slots.set pos (some cand)).length]? = some none := by
            obtain ⟨j, hj, hemp⟩ := hwin
            have hj0 : 0 < j := hwin0 j hj hemp
            refine ⟨j - 1, by omega, ?_⟩
            rw [hlen', window_shift hj0,
              List.getElem?_set_ne (Ne.symm (add_mod_ne_self hpos hj0 (by omega)))]
            exact hemp
          have hrh' : RHInv (slots.set pos (some cand)) :=
            rhinv_set hrh hpos (Or.inr ⟨r, ho, hswap⟩) hpc
          have hpc' : 0 < r.distance ((pos + 1) % slots.length)
              (slots.set pos (some cand)).length →
              ∃ kv', (slots.set pos (some cand))[predIdx ((pos + 1) % slots.length)
                  (slots.set pos (some cand)).length]? = some (some kv') ∧
                r.distance ((pos + 1) % slots.length) (slots.set pos (some cand)).length ≤
                  kv'.distance (predIdx ((pos + 1) % slots.length)
                    (slots.set pos (some cand)).length)
                    (slots.set pos (some cand)).length + 1 := by
            rw [hlen', predIdx_succ hpos]
            intro _
            refine ⟨cand, List.getElem?_set_eq_of_lt _ hpos, ?_⟩
            have hstep : r.distance ((pos + 1) % slots.length) slots.length
                = (r.distance pos slots.length + 1) % slots.length :=
              distance_succ r.hash hlen pos
            have hle : (r.distance pos slots.length + 1) % slots.length
                ≤ r.distance pos slots.length + 1 := Nat.mod_le _ _
            rw [hstep]
            omega
          obtain ⟨out, hout, hlenout, hrhout, hEout⟩ :=
            ih (slots.set pos (some cand)) r ((pos + 1) % slots.length)
              hpos' hfuel' hwin' hrh' hndl hfreshl hpc'
          refine ⟨out, ?_, ?_, hrhout, ?_⟩
          · rw [insertFrom_succ]
            simp only [ho]
            rw [if_neg hdup, if_pos hswap]
            exact hout
          · rw [hlenout, hlen']
          · rw [hEout]
            calc r ::ₘ (entriesOf (slots.set pos (some cand)) : Multiset KeyValuePair)
                = (entriesOf (slots.set pos (some cand)) : Multiset KeyValuePair)
                  + {r} := by rw [add_comm, Multiset.singleton_add]
              _ = (entriesOf slots : Multiset KeyValuePair) + {cand} := hEswap
              _ = cand ::ₘ (entriesOf slots : Multiset KeyValuePair) := by
                  rw [add_comm, Multiset.singleton_add]
        · -- continue: the resident keeps the slot and the candidate moves on
          have hpos' : (pos + 1) % slots.length < slots.length := Nat.mod_lt _ hlen
          have hfuel' : f ≤ slots.length := by omega
          have hwin' : ∃ j : Nat, j < f ∧
              slots[((pos + 1) % slots.length + j) % slots.length]? = some none := by
            obtain ⟨j, hj, hemp⟩ := hwin
            have hj0 : 0 < j := hwin0 j hj hemp
            refine ⟨j - 1, by omega, ?_⟩
            rw [window_shift hj0]
            exact hemp
          have hpc' : 0 < cand.distance ((pos + 1) % slots.length) slots.length →
              ∃ kv', slots[predIdx ((pos + 1) % slots.length) slots.length]?
                  = some (some kv') ∧
                cand.distance ((pos + 1) % slots.length) slots.length ≤
                  kv'.distance (predIdx ((pos + 1) % slots.length) slots.length)
                    slots.length + 1 := by
            rw [predIdx_succ hpos]
            intro _
            refine ⟨r, ho, ?_⟩
            have hstep : cand.distance ((pos + 1) % slots.length) slots.length
                = (cand.distance pos slots.length + 1) % slots.length :=
              distance_succ cand.hash hlen pos
            have hle : (cand.distance pos slots.length + 1) % slots.length
                ≤ cand.distance pos slots.length + 1 := Nat.mod_le _ _
            rw [hstep]
            omega
          obtain ⟨out, hout, hlenout, hrhout, hEout⟩ :=
            ih slots cand ((pos + 1) % slots.length) hpos' hfuel' hwin' hrh hnd hfresh hpc'
          refine ⟨out, ?_, hlenout, hrhout, hEout⟩
          rw [insertFrom_succ]
          simp only [ho]
          rw [if_neg hdup, if_neg hswap]
          exact hout

end CarIndex

/-! ### Lookup: the scan finds every stored entry and nothing else -/

namespace CarIndex

theorem kv_dist (kv : KeyValuePair) (p len : Nat) :
    kv.distance p len = kv.hash.distance p len := rfl

theorem kv_distance_lt {kv : KeyValuePair} {p len : Nat} (hlen : 0 < len) :
    kv.distance p len < len := by
  unfold KeyValuePair.distance Hash.distance
  exact Nat.mod_lt _ hlen

/-- Iterated form of the Robin Hood invariant: walking `k` steps back from an
occupied slot stays on occupied slots whose displacement drops by at most one
per step. -/
theorem rh_path {slots : List (Option KeyValuePair)} (hrh : RHInv slots)
    {q : Nat} {kv : KeyValuePair} (hq : slots[q]? = some (some kv)) :
    ∀ k, k ≤ kv.distance q slots.length →
    ∃ kv', slots[(q + slots.length - k) % slots.length]? = some (some kv') ∧
      kv.distance q slots.length - k
        ≤ kv'.distance ((q + slots.length - k) % slots.length) slots.length := by
  have hqlen : q < slots.length := pos_lt_of_getElem hq
  have hlen : 0 < slots.length := Nat.lt_of_le_of_lt (Nat.zero_le q) hqlen
  have hdlt : kv.distance q slots.length < slots.length := kv_distance_lt hlen
  intro k
  induction k with
  | zero =>
    intro _
    have e : (q + slots.length - 0) % slots.length = q := by
      rw [Nat.sub_zero, Nat.add_mod_right, Nat.mod_eq_of_lt hqlen]
    rw [e]
    exact ⟨kv, hq, by omega⟩
  | succ k ihk =>
    intro hk1
    obtain ⟨kv', hkv', hb⟩ := ihk (by omega)
    have hd0 : 0 < kv'.distance ((q + slots.length - k) % slots.length) slots.length := by
      omega
    obtain ⟨kv'', hkv'', hb2⟩ := hrh _ kv' hkv' hd0
    have hpred : predIdx ((q + slots.length - k) % slots.length) slots.length
        = (q + slots.length - (k + 1)) % slots.length := predIdx_sub hqlen (by omega)
    rw [hpred] at hkv'' hb2
    exact ⟨kv'', hkv'', by omega⟩

/-- The lookup scan, started at probe index `j` of the sought entry's probe
path, reaches the entry. -/
theorem lookupFrom_present {slots : List (Option KeyValuePair)} (hrh : RHInv slots)
    (hnd : NodupHashes slots) {p : Nat} {kv : KeyValuePair}
    (hp : slots[p]? = some (some kv)) :
    ∀ n j, j ≤ kv.distance p slots.length → kv.distance p slots.length - j = n →
    lookupFrom slots kv.hash ((kv.hash.val % slots.length + j) % slots.length) j
      (slots.length - j) = some kv.value := by
  have hplen : p < slots.length := pos_lt_of_getElem hp
  have hlen : 0 < slots.length := Nat.lt_of_le_of_lt (Nat.zero_le p) hplen
  have hdlt : kv.distance p slots.length < slots.length := kv_distance_lt hlen
  intro n
  induction n with
  | zero =>
    intro j hj hn
    have hjd : j = kv.distance p slots.length := by omega
    have e : (kv.hash.val % slots.length + j) % slots.length = p := by
      rw [hjd]
      exact bucket_add_distance kv.hash hplen
    rw [e]
    have hfuel : slots.length - j = (slots.length - j - 1) + 1 := by omega
    rw [hfuel, lookupFrom_succ]
    simp [hp]
  | succ n ihn =>
    intro j hj hn
    have hjlt : j < kv.distance p slots.length := by omega
    obtain ⟨kv', hkv', hb⟩ := rh_path hrh hp (kv.distance p slots.length - j) (by omega)
    have epos : (p + slots.length - (kv.distance p slots.length - j)) % slots.length
        = (kv.hash.val % slots.length + j) % slots.length := by
      rw [kv_dist] at hj ⊢
      exact probe_pos kv.hash hplen hj
    rw [epos] at hkv' hb
    have hbj : j ≤ kv'.distance ((kv.hash.val % slots.length + j) % slots.length)
        slots.length := by omega
    have hne : kv'.hash ≠ kv.hash := by
      intro hh
      have hpp := hash_pos_inj hnd hkv' hp hh
      have h1 : kv.hash.distance ((kv.hash.val % slots.length + j) % slots.length)
          slots.length = j := distance_probe kv.hash hlen (by omega)
      rw [hpp] at h1
      rw [kv_dist] at hjlt
      omega
    have hfuel : slots.length - j = (slots.length - (j + 1)) + 1 := by omega
    rw [hfuel, lookupFrom_succ]
    simp only [hkv']
    rw [if_neg hne, if_neg (by omega :
      ¬ kv'.distance ((kv.hash.val % slots.length + j) % slots.length) slots.length < j)]
    rw [succ_probe_idx]
    exact ihn (j + 1) (by omega) (by omega)

theorem lookupFrom_some {slots : List (Option KeyValuePair)} {h : Hash} {v : FrameOffset} :
    ∀ (fuel pos probes : Nat), lookupFrom slots h pos probes fuel = some v →
    ∃ p : Nat, slots[p]? = some (some ⟨h, v⟩) := by
  intro fuel
  induction fuel with
  | zero =>
    intro pos probes hl
    simp [lookupFrom] at hl
  | succ f ih =>
    intro pos probes hl
    rw [lookupFrom_succ] at hl
    cases hslot : slots[pos]? with
    | none =>
      rw [hslot] at hl
      simp at hl
    | some o =>
      cases o with
      | none =>
        rw [hslot] at hl
        simp at hl
      | some kv =>
        simp only [hslot] at hl
        by_cases hh : kv.hash = h
        · rw [if_pos hh] at hl
          have hv : kv.value = v := by injection hl
          refine ⟨pos, ?_⟩
          have hkv : kv = ⟨h, v⟩ := by
            cases kv
            simp_all
          rw [← hkv]
          exact hslot
        · rw [if_neg hh] at hl
          by_cases hlt : kv.distance pos slots.length < probes
          · rw [if_pos hlt] at hl
            simp at hl
          · rw [if_neg hlt] at hl
            exact ih _ _ hl

theorem lookup_present {t : Table} (hrh : RHInv t.slots) (hnd : NodupHashes t.slots)
    {kv : KeyValuePair} (hmem : kv ∈ entriesOf t.slots) :
    t.lookup kv.hash = some kv.value := by
  obtain ⟨p, hp⟩ : ∃ p : Nat, t.slots[p]? = some (some kv) := by
    rw [mem_entriesOf_iff] at hmem
    exact List.mem_iff_getElem?.mp hmem
  have hplen : p < t.slots.length := pos_lt_of_getElem hp
  have hlen : 0 < t.slots.length := Nat.lt_of_le_of_lt (Nat.zero_le p) hplen
  have hmain := lookupFrom_present hrh hnd hp (kv.distance p t.slots.length) 0
    (Nat.zero_le _) (by omega)
  rw [Nat.add_zero, Nat.sub_zero, Nat.mod_eq_of_lt (Nat.mod_lt _ hlen)] at hmain
  unfold Table.lookup Table.capacity
  simp only [Hash.bucket]
  exact hmain

theorem lookup_absent {t : Table} {h : Hash}
    (habs : ∀ kv ∈ entriesOf t.slots, kv.hash ≠ h) : t.lookup h = none := by
  cases hl : t.lookup h with
  | none => rfl
  | some v =>
    exfalso
    unfold Table.lookup at hl
    obtain ⟨p, hp⟩ := lookupFrom_some _ _ _ hl
    exact habs _ (mem_entriesOf_of_getElem hp) rfl

theorem entriesOf_replicate_none : ∀ n : Nat, entriesOf (List.replicate n none) = [] := by
  intro n
  induction n with
  | zero => rfl
  | succ n ihn =>
    rw [List.replicate_succ, entriesOf_cons, ihn]
    rfl

theorem lookup_empty (cap : Nat) (h : Hash) : (Table.empty cap).lookup h = none := by
  apply lookup_absent
  intro kv hkv
  rw [show (Table.empty cap).slots = List.replicate cap none from rfl,
    entriesOf_replicate_none] at hkv
  exact absurd hkv (List.not_mem_nil _)

end CarIndex

/-! ### Table-level insertion, resize and build -/

namespace CarIndex

theorem occ_le_capacity (t : Table) : t.occupiedCount ≤ t.capacity :=
  List.length_filterMap_le _ _

theorem occ_succ_of_cons {t t' : Table} {kv : KeyValuePair}
    (hE : (entriesOf t'.slots : Multiset KeyValuePair)
      = kv ::ₘ (entriesOf t.slots : Multiset KeyValuePair)) :
    t'.occupiedCount = t.occupiedCount + 1 := by
  have h0 := congrArg Multiset.card hE
  rw [Multiset.card_cons, Multiset.coe_card, Multiset.coe_card] at h0
  exact h0

theorem occ_eq_of_entries_eq {t t' : Table}
    (hE : (entriesOf t'.slots : Multiset KeyValuePair)
      = (entriesOf t.slots : Multiset KeyValuePair)) :
    t'.occupiedCount = t.occupiedCount := by
  have h0 := congrArg Multiset.card hE
  rw [Multiset.coe_card, Multiset.coe_card] at h0
  exact h0

theorem insertRaw_spec {t : Table} (hwf : t.WF) {kv : KeyValuePair}
    (hfresh : kv.hash ∉ (entriesOf t.slots).map KeyValuePair.hash)
    (hroom : t.occupiedCount < t.capacity) :
    ∃ t', t.insertRaw kv = some t' ∧ t'.WF ∧ t'.capacity = t.capacity ∧
      (entriesOf t'.slots : Multiset KeyValuePair)
        = kv ::ₘ (entriesOf t.slots : Multiset KeyValuePair) := by
  obtain ⟨hrh, hnd⟩ := hwf
  have hlen : 0 < t.slots.length := Nat.lt_of_le_of_lt (Nat.zero_le _) hroom
  have hpos : kv.bucket t.capacity < t.slots.length := by
    unfold KeyValuePair.bucket Hash.bucket
    exact Nat.mod_lt _ hlen
  obtain ⟨i, hi⟩ := exists_empty_of_occ_lt
    (show (entriesOf t.slots).length < t.slots.length from hroom)
  obtain ⟨j, hj, hjemp⟩ := window_of_empty hpos hi
  have hpc : 0 < kv.distance (kv.bucket t.capacity) t.slots.length →
      ∃ kv', t.slots[predIdx (kv.bucket t.capacity) t.slots.length]? = some (some kv') ∧
        kv.distance (kv.bucket t.capacity) t.slots.length ≤
          kv'.distance (predIdx (kv.bucket t.capacity) t.slots.length) t.slots.length + 1 := by
    intro h0
    exfalso
    have hz := distance_at_bucket kv.hash t.slots.length
    simp only [kv_dist, KeyValuePair.bucket, Table.capacity] at h0
    omega
  obtain ⟨out, hout, hlenout, hrhout, hEout⟩ :=
    insertFrom_spec t.capacity t.slots kv (kv.bucket t.capacity) hpos
      (le_refl t.slots.length) ⟨j, hj, hjemp⟩ hrh hnd hfresh hpc
  have hndout : NodupHashes out := by
    unfold NodupHashes
    rw [← Multiset.coe_nodup, ← Multiset.map_coe, hEout, Multiset.map_cons,
      Multiset.nodup_cons]
    constructor
    · rw [Multiset.map_coe]
      exact fun hm => hfresh (Multiset.mem_coe.mp hm)
    · rw [Multiset.map_coe, Multiset.coe_nodup]
      exact hnd
  refine ⟨⟨out⟩, ?_, ⟨hrhout, hndout⟩, hlenout, hEout⟩
  unfold Table.insertRaw
  rw [hout]
  rfl

theorem insertRawList_spec :
    ∀ (es : List KeyValuePair) (t : Table), t.WF →
    (es.map KeyValuePair.hash).Nodup →
    (∀ e ∈ es, e.hash ∉ (entriesOf t.slots).map KeyValuePair.hash) →
    t.occupiedCount + es.length ≤ t.capacity →
    ∃ t', es.foldlM Table.insertRaw t = some t' ∧ t'.WF ∧
      t'.capacity = t.capacity ∧
      (entriesOf t'.slots : Multiset KeyValuePair)
        = (entriesOf t.slots : Multiset KeyValuePair) + ↑es := by
  intro es
  induction es with
  | nil =>
    intro t hwf _ _ _
    exact ⟨t, rfl, hwf, rfl, by simp⟩
  | cons e es ih =>
    intro t hwf hnd hdisj hroom
    have hroom1 : t.occupiedCount < t.capacity := by
      simp only [List.length_cons] at hroom
      omega
    obtain ⟨t1, h1, hwf1, hcap1, hE1⟩ := insertRaw_spec hwf (hdisj e (by simp)) hroom1
    have hnd' : (es.map KeyValuePair.hash).Nodup := by
      simp only [List.map_cons, List.nodup_cons] at hnd
      exact hnd.2
    have hhead : e.hash ∉ es.map KeyValuePair.hash := by
      simp only [List.map_cons, List.nodup_cons] at hnd
      exact hnd.1
    have hdisj' : ∀ e' ∈ es, e'.hash ∉ (entriesOf t1.slots).map KeyValuePair.hash := by
      intro e' he' hmem
      have hm : e'.hash ∈ (entriesOf t1.slots : Multiset KeyValuePair).map
          KeyValuePair.hash := by
        rw [Multiset.map_coe]
        exact Multiset.mem_coe.mpr hmem
      rw [hE1, Multiset.map_cons, Multiset.mem_cons] at hm
      rcases hm with hm | hm
      · exact hhead (hm ▸ List.mem_map_of_mem KeyValuePair.hash he')
      · rw [Multiset.map_coe] at hm
        exact hdisj e' (by simp [he']) (Multiset.mem_coe.mp hm)
    have hocc1 : t1.occupiedCount = t.occupiedCount + 1 := occ_succ_of_cons hE1
    have hroom' : t1.occupiedCount + es.length ≤ t1.capacity := by
      rw [hocc1, hcap1]
      simp only [List.length_cons] at hroom
      omega
    obtain ⟨t', h2, hwf', hcap', hE'⟩ := ih t1 hwf1 hnd' hdisj' hroom'
    refine ⟨t', ?_, hwf', by rw [hcap', hcap1], ?_⟩
    · rw [List.foldlM_cons, h1]
      exact h2
    · rw [hE', hE1]
      rw [show ((e :: es : List KeyValuePair) : Multiset KeyValuePair)
        = e ::ₘ (es : Multiset KeyValuePair) from rfl]
      rw [← Multiset.singleton_add, ← Multiset.singleton_add]
      abel

theorem empty_WF (cap : Nat) : (Table.empty cap).WF := by
  constructor
  · intro p kv hp _
    exfalso
    have h0 : (List.replicate cap (none : Option KeyValuePair))[p]? = some (some kv) := hp
    rcases Nat.lt_or_ge p cap with hlt | hge
    · rw [List.getElem?_replicate, if_pos hlt] at h0
      simp at h0
    · rw [List.getElem?_replicate, if_neg (by omega)] at h0
      simp at h0
  · unfold NodupHashes
    rw [show (Table.empty cap).slots = List.replicate cap none from rfl,
      entriesOf_replicate_none]
    simp

theorem empty_occ (cap : Nat) : (Table.empty cap).occupiedCount = 0 := by
  show (entriesOf (List.replicate cap none)).length = 0
  rw [entriesOf_replicate_none]
  rfl

theorem empty_capacity (cap : Nat) : (Table.empty cap).capacity = cap :=
  List.length_replicate ..

theorem resize_spec {t : Table} (hnd : NodupHashes t.slots) :
    ∃ t', t.resize = some t' ∧ t'.WF ∧
      t'.capacity = (if t.capacity = 0 then 1 else 2 * t.capacity) ∧
      (entriesOf t'.slots : Multiset KeyValuePair)
        = (entriesOf t.slots : Multiset KeyValuePair) := by
  have hcap_le : (entriesOf t.slots).length ≤ t.slots.length :=
    List.length_filterMap_le _ _
  have hroom : (Table.empty (if t.capacity = 0 then 1 else 2 * t.capacity)).occupiedCount
      + (entriesOf t.slots).length
      ≤ (Table.empty (if t.capacity = 0 then 1 else 2 * t.capacity)).capacity := by
    rw [empty_occ, empty_capacity]
    by_cases h0 : t.capacity = 0
    · rw [if_pos h0]
      have hz : t.slots.length = 0 := h0
      omega
    · rw [if_neg h0]
      have hz : t.slots.length = t.capacity := rfl
      omega
  have hdisj : ∀ e ∈ entriesOf t.slots, e.hash ∉
      (entriesOf (Table.empty (if t.capacity = 0 then 1 else 2 * t.capacity)).slots).map
        KeyValuePair.hash := by
    intro e _ hmem
    rw [show (Table.empty (if t.capacity = 0 then 1 else 2 * t.capacity)).slots
      = List.replicate (if t.capacity = 0 then 1 else 2 * t.capacity) none from rfl,
      entriesOf_replicate_none] at hmem
    simp at hmem
  obtain ⟨t', h1, hwf', hcap', hE'⟩ := insertRawList_spec (entriesOf t.slots)
    (Table.empty (if t.capacity = 0 then 1 else 2 * t.capacity))
    (empty_WF _) hnd hdisj hroom
  refine ⟨t', h1, hwf', by rw [hcap', empty_capacity], ?_⟩
  rw [hE']
  rw [show (entriesOf (Table.empty (if t.capacity = 0 then 1 else 2 * t.capacity)).slots)
    = [] from by
      rw [show (Table.empty (if t.capacity = 0 then 1 else 2 * t.capacity)).slots
        = List.replicate (if t.capacity = 0 then 1 else 2 * t.capacity) none from rfl]
      exact entriesOf_replicate_none _]
  simp

theorem insert_spec {t : Table} (hwf : t.WF) {kv : KeyValuePair}
    (hfresh : kv.hash ∉ (entriesOf t.slots).map KeyValuePair.hash) :
    ∃ t', t.insert kv = some t' ∧ t'.WF ∧
      (entriesOf t'.slots : Multiset KeyValuePair)
        = kv ::ₘ (entriesOf t.slots : Multiset KeyValuePair) ∧
      (10 * (t.occupiedCount + 1) ≥ 9 * t.capacity →
        t'.capacity = (if t.capacity = 0 then 1 else 2 * t.capacity)) ∧
      (¬ 10 * (t.occupiedCount + 1) ≥ 9 * t.capacity → t'.capacity = t.capacity) ∧
      (t'.occupiedCount < t'.capacity ∨ t'.capacity ≤ 2) := by
  by_cases hcross : 10 * (t.occupiedCount + 1) ≥ 9 * t.capacity
  · obtain ⟨tr, hr, hwfr, hcapr, hEr⟩ := resize_spec hwf.2
    have hfreshr : kv.hash ∉ (entriesOf tr.slots).map KeyValuePair.hash := by
      intro hm
      apply hfresh
      have hm2 : kv.hash ∈ (entriesOf tr.slots : Multiset KeyValuePair).map
          KeyValuePair.hash := by
        rw [Multiset.map_coe]
        exact Multiset.mem_coe.mpr hm
      rw [hEr, Multiset.map_coe] at hm2
      exact Multiset.mem_coe.mp hm2
    have hoccr : tr.occupiedCount = t.occupiedCount := occ_eq_of_entries_eq hEr
    have hoc : t.occupiedCount ≤ t.capacity := occ_le_capacity t
    have hroomr : tr.occupiedCount < tr.capacity := by
      rw [hoccr, hcapr]
      by_cases h0 : t.capacity = 0
      · rw [if_pos h0]
        omega
      · rw [if_neg h0]
        omega
    obtain ⟨t', h2, hwf', hcap', hE'⟩ := insertRaw_spec hwfr hfreshr hroomr
    have hocc' : t'.occupiedCount = t.occupiedCount + 1 := by
      rw [occ_succ_of_cons hE', hoccr]
    refine ⟨t', ?_, hwf', by rw [hE', hEr],
      fun _ => by rw [hcap', hcapr], fun hn => absurd hcross hn, ?_⟩
    · unfold Table.insert
      rw [if_pos hcross, hr]
      exact h2
    · rw [hocc', hcap', hcapr]
      by_cases h0 : t.capacity = 0
      · rw [if_pos h0]
        omega
      · rw [if_neg h0]
        omega
  · have hroom : t.occupiedCount < t.capacity := by omega
    obtain ⟨t', h2, hwf', hcap', hE'⟩ := insertRaw_spec hwf hfresh hroom
    have hocc' : t'.occupiedCount = t.occupiedCount + 1 := occ_succ_of_cons hE'
    refine ⟨t', ?_, hwf', hE', fun hc => absurd hc hcross, fun _ => hcap', ?_⟩
    · unfold Table.insert
      rw [if_neg hcross]
      exact h2
    · left
      rw [hocc', hcap']
      omega

theorem insertList_spec :
    ∀ (es : List KeyValuePair) (t : Table), t.WF →
    (es.map KeyValuePair.hash).Nodup →
    (∀ e ∈ es, e.hash ∉ (entriesOf t.slots).map KeyValuePair.hash) →
    (t.occupiedCount < t.capacity ∨ t.capacity ≤ 2) →
    ∃ t', es.foldlM Table.insert t = some t' ∧ t'.WF ∧
      (t'.occupiedCount < t'.capacity ∨ t'.capacity ≤ 2) ∧
      (entriesOf t'.slots : Multiset KeyValuePair)
        = (entriesOf t.slots : Multiset KeyValuePair) + ↑es := by
  intro es
  induction es with
  | nil =>
    intro t hwf _ _ hrem
    exact ⟨t, rfl, hwf, hrem, by simp⟩
  | cons e es ih =>
    intro t hwf hnd hdisj hrem
    obtain ⟨t1, h1, hwf1, hE1, _, _, hrem1⟩ := insert_spec hwf (hdisj e (by simp))
    have hnd' : (es.map KeyValuePair.hash).Nodup := by
      simp only [List.map_cons, List.nodup_cons] at hnd
      exact hnd.2
    have hhead : e.hash ∉ es.map KeyValuePair.hash := by
      simp only [List.map_cons, List.nodup_cons] at hnd
      exact hnd.1
    have hdisj' : ∀ e' ∈ es, e'.hash ∉ (entriesOf t1.slots).map KeyValuePair.hash := by
      intro e' he' hmem
      have hm : e'.hash ∈ (entriesOf t1.slots : Multiset KeyValuePair).map
          KeyValuePair.hash := by
        rw [Multiset.map_coe]
        exact Multiset.mem_coe.mpr hmem
      rw [hE1, Multiset.map_cons, Multiset.mem_cons] at hm
      rcases hm with hm | hm
      · exact hhead (hm ▸ List.mem_map_of_mem KeyValuePair.hash he')
      · rw [Multiset.map_coe] at hm
        exact hdisj e' (by simp [he']) (Multiset.mem_coe.mp hm)
    obtain ⟨t', h2, hwf', hrem', hE'⟩ := ih t1 hwf1 hnd' hdisj' hrem1
    refine ⟨t', ?_, hwf', hrem', ?_⟩
    · rw [List.foldlM_cons, h1]
      exact h2
    · rw [hE', hE1]
      rw [show ((e :: es : List KeyValuePair) : Multiset KeyValuePair)
        = e ::ₘ (es : Multiset KeyValuePair) from rfl]
      rw [← Multiset.singleton_add, ← Multiset.singleton_add]
      abel

theorem buildTable_spec {cap : Nat} {es : List KeyValuePair}
    (hnd : (es.map KeyValuePair.hash).Nodup) :
    ∃ t, Table.buildTable cap es = some t ∧ t.WF ∧
      (t.occupiedCount < t.capacity ∨ t.capacity ≤ 2) ∧
      (entriesOf t.slots : Multiset KeyValuePair) = ↑es := by
  have hdisj : ∀ e ∈ es, e.hash ∉ (entriesOf (Table.empty cap).slots).map
      KeyValuePair.hash := by
    intro e _ hmem
    rw [show (Table.empty cap).slots = List.replicate cap none from rfl,
      entriesOf_replicate_none] at hmem
    simp at hmem
  have hrem : (Table.empty cap).occupiedCount < (Table.empty cap).capacity
      ∨ (Table.empty cap).capacity ≤ 2 := by
    rw [empty_occ, empty_capacity]
    omega
  obtain ⟨t, h1, hwf, hrem', hE⟩ := insertList_spec es (Table.empty cap)
    (empty_WF cap) hnd hdisj hrem
  refine ⟨t, h1, hwf, hrem', ?_⟩
  rw [hE]
  rw [show (entriesOf (Table.empty cap).slots) = [] from by
    rw [show (Table.empty cap).slots = List.replicate cap none from rfl]
    exact entriesOf_replicate_none _]
  simp

end CarIndex

namespace CarIndex

theorem lookup_present_of_entries {t : Table} (hwf : t.WF) {es : List KeyValuePair}
    (hE : (entriesOf t.slots : Multiset KeyValuePair) = ↑es) {e : KeyValuePair}
    (he : e ∈ es) : t.lookup e.hash = some e.value := by
  apply lookup_present hwf.1 hwf.2
  have hm : e ∈ (entriesOf t.slots : Multiset KeyValuePair) := by
    rw [hE]
    exact Multiset.mem_coe.mpr he
  exact Multiset.mem_coe.mp hm

theorem lookup_absent_of_entries {t : Table} {es : List KeyValuePair}
    (hE : (entriesOf t.slots : Multiset KeyValuePair) = ↑es) {h : Hash}
    (hh : h ∉ es.map KeyValuePair.hash) : t.lookup h = none := by
  apply lookup_absent
  intro kv hkv heq
  apply hh
  have hm : kv ∈ (entriesOf t.slots : Multiset KeyValuePair) := Multiset.mem_coe.mpr hkv
  rw [hE] at hm
  exact heq ▸ List.mem_map_of_mem KeyValuePair.hash (Multiset.mem_coe.mp hm)

/-- Claim C1: building a table from any finite set of pairs with pairwise
distinct digests makes every inserted pair retrievable via lookup, makes
every digest that was never inserted map to not-found, makes lookup on an
empty table answer not-found for every digest, and lookup is total — absence
is the `none` value, never an error. -/
theorem c1_lookup_correct (cap : Nat) (es : List KeyValuePair)
    (hnd : (es.map KeyValuePair.hash).Nodup) :
    ∃ t : Table, Table.buildTable cap es = some t ∧
      (∀ e ∈ es, t.lookup e.hash = some e.value) ∧
      (∀ h : Hash, h ∉ es.map KeyValuePair.hash → t.lookup h = none) ∧
      (∀ (cap' : Nat) (h : Hash), (Table.empty cap').lookup h = none) ∧
      (∀ (t' : Table) (h : Hash), t'.lookup h = none ∨ ∃ v, t'.lookup h = some v) := by
  obtain ⟨t, hb, hwf, _, hE⟩ := buildTable_spec hnd
  refine ⟨t, hb, ?_, ?_, fun cap' h => lookup_empty cap' h, ?_⟩
  · intro e he
    exact lookup_present_of_entries hwf hE he
  · intro h hh
    exact lookup_absent_of_entries hE hh
  · intro t' h
    cases hl : t'.lookup h with
    | none => exact Or.inl rfl
    | some v => exact Or.inr ⟨v, rfl⟩

/-- Witness for C1 at a concrete table build. -/
theorem c1_lookup_correct_witness :
    ∃ t : Table, Table.buildTable 4 [⟨⟨1⟩, 10⟩, ⟨⟨5⟩, 20⟩] = some t ∧
      (∀ e ∈ [(⟨⟨1⟩, 10⟩ : KeyValuePair), ⟨⟨5⟩, 20⟩], t.lookup e.hash = some e.value) ∧
      (∀ h : Hash,
        h ∉ [(⟨⟨1⟩, 10⟩ : KeyValuePair), ⟨⟨5⟩, 20⟩].map KeyValuePair.hash →
          t.lookup h = none) ∧
      (∀ (cap' : Nat) (h : Hash), (Table.empty cap').lookup h = none) ∧
      (∀ (t' : Table) (h : Hash), t'.lookup h = none ∨ ∃ v, t'.lookup h = some v) :=
  c1_lookup_correct 4 [⟨⟨1⟩, 10⟩, ⟨⟨5⟩, 20⟩] (by decide)

/-- Claim C5, amended: inserting the same set of distinct-digest entries in
two different orders yields tables with the same multiset of stored entries
and identical lookup behaviour on every digest; the slot-level assignment of
entries to positions may differ between the orders. -/
theorem c5_order_independent_lookup (cap : Nat) {es1 es2 : List KeyValuePair}
    (hperm : es1.Perm es2) (hnd : (es1.map KeyValuePair.hash).Nodup)
    {t1 t2 : Table} (h1 : Table.buildTable cap es1 = some t1)
    (h2 : Table.buildTable cap es2 = some t2) :
    (entriesOf t1.slots : Multiset KeyValuePair)
      = (entriesOf t2.slots : Multiset KeyValuePair) ∧
    ∀ h : Hash, t1.lookup h = t2.lookup h := by
  have hnd2 : (es2.map KeyValuePair.hash).Nodup := ((hperm.map _).nodup_iff).mp hnd
  obtain ⟨t1', hb1, hwf1, _, hE1⟩ := buildTable_spec hnd
  obtain ⟨t2', hb2, hwf2, _, hE2⟩ := buildTable_spec hnd2
  have he1 : t1' = t1 := by
    rw [h1] at hb1
    exact (Option.some.inj hb1).symm
  have he2 : t2' = t2 := by
    rw [h2] at hb2
    exact (Option.some.inj hb2).symm
  subst he1
  subst he2
  have hcoe : (es1 : Multiset KeyValuePair) = (es2 : Multiset KeyValuePair) :=
    Multiset.coe_eq_coe.mpr hperm
  refine ⟨by rw [hE1, hE2, hcoe], ?_⟩
  intro h
  by_cases hmem : h ∈ es1.map KeyValuePair.hash
  · obtain ⟨kv, hkv, heq⟩ := List.mem_map.mp hmem
    subst heq
    rw [lookup_present_of_entries hwf1 hE1 hkv,
      lookup_present_of_entries hwf2 hE2 (hperm.mem_iff.mp hkv)]
  · have habs2 : h ∉ es2.map KeyValuePair.hash := by
      intro hm
      exact hmem (((hperm.map KeyValuePair.hash).mem_iff).mpr hm)
    rw [lookup_absent_of_entries hE1 hmem, lookup_absent_of_entries hE2 habs2]

/-- Witness for the amended C5 at the two orders of a concrete entry set. -/
theorem c5_order_independent_lookup_witness :
    (entriesOf (Table.mk [some ⟨⟨0⟩, 10⟩, some ⟨⟨4⟩, 20⟩, none, none]).slots
        : Multiset KeyValuePair)
      = (entriesOf (Table.mk [some ⟨⟨4⟩, 20⟩, some ⟨⟨0⟩, 10⟩, none, none]).slots
        : Multiset KeyValuePair) ∧
    ∀ h : Hash, (Table.mk [some ⟨⟨0⟩, 10⟩, some ⟨⟨4⟩, 20⟩, none, none]).lookup h
      = (Table.mk [some ⟨⟨4⟩, 20⟩, some ⟨⟨0⟩, 10⟩, none, none]).lookup h :=
  c5_order_independent_lookup 4
    (List.Perm.swap (⟨⟨4⟩, 20⟩ : KeyValuePair) ⟨⟨0⟩, 10⟩ [])
    (by decide) (by decide) (by decide)

/-- Claim C7: an insertion that would push the load factor past the ceiling
triggers a resize to a strictly larger capacity, the resized table holds
every prior entry plus the new one, and lookup retrieves every previously
inserted digest as well as the new digest afterwards. -/
theorem c7_resize_transparent (cap : Nat) {es : List KeyValuePair}
    (hnd : (es.map KeyValuePair.hash).Nodup) {t : Table}
    (hbuild : Table.buildTable cap es = some t) {kv : KeyValuePair}
    (hfresh : kv.hash ∉ es.map KeyValuePair.hash)
    (hcross : 10 * (t.occupiedCount + 1) ≥ 9 * t.capacity) :
    ∃ t', t.insert kv = some t' ∧ t.capacity < t'.capacity ∧
      (entriesOf t'.slots : Multiset KeyValuePair) = kv ::ₘ ↑es ∧
      t'.lookup kv.hash = some kv.value ∧
      ∀ e ∈ es, t'.lookup e.hash = some e.value := by
  obtain ⟨t0, hb0, hwf0, _, hE0⟩ := buildTable_spec hnd
  have he0 : t0 = t := by
    rw [hbuild] at hb0
    exact (Option.some.inj hb0).symm
  subst he0
  have hfresh' : kv.hash ∉ (entriesOf t0.slots).map KeyValuePair.hash := by
    intro hm
    apply hfresh
    have hm2 : kv.hash ∈ (entriesOf t0.slots : Multiset KeyValuePair).map
        KeyValuePair.hash := by
      rw [Multiset.map_coe]
      exact Multiset.mem_coe.mpr hm
    rw [hE0, Multiset.map_coe] at hm2
    exact Multiset.mem_coe.mp hm2
  obtain ⟨t', h1, hwf', hE', hgrow, _, _⟩ := insert_spec hwf0 hfresh'
  have hcap' : t'.capacity = (if t0.capacity = 0 then 1 else 2 * t0.capacity) :=
    hgrow hcross
  have hE'' : (entriesOf t'.slots : Multiset KeyValuePair) = kv ::ₘ ↑es := by
    rw [hE', hE0]
  refine ⟨t', h1, ?_, hE'', ?_, ?_⟩
  · rw [hcap']
    by_cases h0 : t0.capacity = 0
    · rw [if_pos h0]
      omega
    · rw [if_neg h0]
      omega
  · apply lookup_present hwf'.1 hwf'.2
    have hm : kv ∈ (entriesOf t'.slots : Multiset KeyValuePair) := by
      rw [hE'']
      exact Multiset.mem_cons_self _ _
    exact Multiset.mem_coe.mp hm
  · intro e he
    apply lookup_present hwf'.1 hwf'.2
    have hm : e ∈ (entriesOf t'.slots : Multiset KeyValuePair) := by
      rw [hE'']
      exact Multiset.mem_cons_of_mem (Multiset.mem_coe.mpr he)
    exact Multiset.mem_coe.mp hm

/-- Witness for C7: a capacity-4 table with three entries resizes on the
fourth insertion and keeps all entries retrievable. -/
theorem c7_resize_transparent_witness :
    ∃ t', (Table.mk [none, some ⟨⟨1⟩, 10⟩, some ⟨⟨5⟩, 20⟩, some ⟨⟨2⟩, 30⟩]).insert
        ⟨⟨0⟩, 40⟩ = some t' ∧
      (Table.mk [none, some ⟨⟨1⟩, 10⟩, some ⟨⟨5⟩, 20⟩, some ⟨⟨2⟩, 30⟩]).capacity
        < t'.capacity ∧
      (entriesOf t'.slots : Multiset KeyValuePair)
        = (⟨⟨0⟩, 40⟩ : KeyValuePair) ::ₘ
          ↑[(⟨⟨1⟩, 10⟩ : KeyValuePair), ⟨⟨5⟩, 20⟩, ⟨⟨2⟩, 30⟩] ∧
      t'.lookup ⟨0⟩ = some 40 ∧
      ∀ e ∈ [(⟨⟨1⟩, 10⟩ : KeyValuePair), ⟨⟨5⟩, 20⟩, ⟨⟨2⟩, 30⟩],
        t'.lookup e.hash = some e.value :=
  c7_resize_transparent 4 (by decide) (by decide) (by decide) (by decide)

end CarIndex

/-! ### Persisted layout: serialization round trip and validation -/

namespace CarIndex

theorem encodeLE_length : ∀ (w n : Nat), (encodeLE n w).length = w := by
  intro w
  induction w with
  | zero => intro n; rfl
  | succ w ih =>
    intro n
    simp [encodeLE, ih]

theorem decode_encode : ∀ (w n : Nat), n < 256 ^ w → decodeLE (encodeLE n w) = n := by
  intro w
  induction w with
  | zero =>
    intro n h
    simp [encodeLE, decodeLE]
    omega
  | succ w ih =>
    intro n h
    rw [show encodeLE n (w + 1) = n % 256 :: encodeLE (n / 256) w from rfl]
    rw [show decodeLE (n % 256 :: encodeLE (n / 256) w)
      = n % 256 + 256 * decodeLE (encodeLE (n / 256) w) from rfl]
    rw [ih (n / 256) (by
      rw [pow_succ, Nat.mul_comm] at h
      exact Nat.div_lt_of_lt_mul h)]
    omega

theorem serializeSlot_length (s : Option KeyValuePair) : (serializeSlot s).length = 17 := by
  cases s <;> simp [serializeSlot, encodeLE_length]

theorem flatten_slots_length (slots : List (Option KeyValuePair)) :
    ((slots.map serializeSlot).flatten).length = 17 * slots.length := by
  induction slots with
  | nil => rfl
  | cons hd tl ih =>
    rw [List.map_cons, List.flatten_cons, List.length_append, serializeSlot_length, ih,
      List.length_cons]
    ring

theorem deserializeSlot_serializeSlot_none :
    deserializeSlot (serializeSlot none) = none := by
  unfold serializeSlot deserializeSlot
  simp

theorem deserializeSlot_serializeSlot_some {kv : KeyValuePair}
    (h1 : kv.hash.val < 2 ^ 64) (h2 : kv.value < 2 ^ 64) :
    deserializeSlot (serializeSlot (some kv)) = some kv := by
  have he : (2 : Nat) ^ 64 = 256 ^ 8 := by norm_num
  unfold serializeSlot deserializeSlot
  rw [if_pos (by rfl)]
  have e1 : ((1 : Nat) :: (encodeLE kv.hash.val 8 ++ encodeLE kv.value 8)).drop 1
      = encodeLE kv.hash.val 8 ++ encodeLE kv.value 8 := rfl
  have e2 : ((1 : Nat) :: (encodeLE kv.hash.val 8 ++ encodeLE kv.value 8)).drop 9
      = (encodeLE kv.hash.val 8 ++ encodeLE kv.value 8).drop 8 := rfl
  rw [e1, e2, List.take_left' (encodeLE_length 8 kv.hash.val),
    List.drop_left' (encodeLE_length 8 kv.hash.val),
    List.take_of_length_le (le_of_eq (encodeLE_length 8 kv.value)),
    decode_encode 8 kv.hash.val (he ▸ h1), decode_encode 8 kv.value (he ▸ h2)]

theorem deserializeSlots_roundtrip :
    ∀ (slots : List (Option KeyValuePair)),
    (∀ kv, some kv ∈ slots → kv.hash.val < 2 ^ 64 ∧ kv.value < 2 ^ 64) →
    deserializeSlots ((slots.map serializeSlot).flatten) slots.length = slots := by
  intro slots
  induction slots with
  | nil => intro _; rfl
  | cons hd tl ih =>
    intro hb
    rw [List.map_cons, List.flatten_cons]
    rw [show deserializeSlots (serializeSlot hd ++ (tl.map serializeSlot).flatten)
        (hd :: tl).length
      = deserializeSlot ((serializeSlot hd ++ (tl.map serializeSlot).flatten).take slotWidth)
        :: deserializeSlots ((serializeSlot hd ++ (tl.map serializeSlot).flatten).drop
          slotWidth) tl.length from rfl]
    rw [List.take_left'
        (show (serializeSlot hd).length = slotWidth from serializeSlot_length hd),
      List.drop_left'
        (show (serializeSlot hd).length = slotWidth from serializeSlot_length hd)]
    congr 1
    · cases hd with
      | none => exact deserializeSlot_serializeSlot_none
      | some kv =>
        obtain ⟨h1, h2⟩ := hb kv (by simp)
        exact deserializeSlot_serializeSlot_some h1 h2
    · exact ih (fun kv hkv => hb kv (by simp [hkv]))

theorem serialize_take6 (t : Table) : (Table.serialize t).take 6 = MAGIC ++ VERSION := by
  unfold Table.serialize
  rw [List.append_assoc, List.append_assoc]
  exact List.take_left' (show ((MAGIC ++ VERSION : List Nat)).length = 6 from rfl)

theorem serialize_drop6 (t : Table) : (Table.serialize t).drop 6
    = encodeLE t.capacity 8 ++ (encodeLE t.occupiedCount 8 ++
      (t.slots.map serializeSlot).flatten) := by
  unfold Table.serialize
  rw [List.append_assoc, List.append_assoc]
  exact List.drop_left' (show ((MAGIC ++ VERSION : List Nat)).length = 6 from rfl)

theorem serialize_drop_header (t : Table) : (Table.serialize t).drop headerWidth
    = (t.slots.map serializeSlot).flatten := by
  unfold Table.serialize
  exact List.drop_left'
    (by simp [List.length_append, encodeLE_length, MAGIC, VERSION, headerWidth])

theorem serialize_length (t : Table) :
    (Table.serialize t).length = 22 + t.slots.length * 17 := by
  unfold Table.serialize
  rw [List.length_append, List.length_append, List.length_append, List.length_append,
    encodeLE_length, encodeLE_length, flatten_slots_length]
  rw [show (MAGIC : List Nat).length = 4 from rfl, show (VERSION : List Nat).length = 2 from rfl]
  ring

theorem serialize_capacity_field (t : Table) (hcap : t.slots.length < 2 ^ 64) :
    decodeLE (((Table.serialize t).drop 6).take 8) = t.slots.length := by
  have he : (2 : Nat) ^ 64 = 256 ^ 8 := by norm_num
  rw [serialize_drop6, List.take_left' (encodeLE_length 8 t.capacity)]
  exact decode_encode 8 t.capacity (he ▸ hcap)

theorem deserialize_serialize {t : Table}
    (hb : ∀ kv, some kv ∈ t.slots → kv.hash.val < 2 ^ 64 ∧ kv.value < 2 ^ 64)
    (hcap : t.slots.length < 2 ^ 64) :
    deserialize (Table.serialize t) = Except.ok t := by
  have hc := serialize_capacity_field t hcap
  unfold deserialize
  rw [if_pos (serialize_take6 t)]
  rw [if_pos (by
    rw [serialize_length, hc]
    rfl)]
  rw [hc, serialize_drop_header, deserializeSlots_roundtrip t.slots hb]

/-- Claim C3: serializing a built table to the persisted layout and
deserializing the bytes yields a table in which every inserted digest still
looks up to its original offset (the round trip in fact reproduces the table
exactly).  The 64-bit bounds restate the `u64` domain of digests, offsets and
capacity in the source. -/
theorem c3_serialize_roundtrip (cap : Nat) (es : List KeyValuePair)
    (hnd : (es.map KeyValuePair.hash).Nodup)
    (hb : ∀ e ∈ es, e.hash.val < 2 ^ 64 ∧ e.value < 2 ^ 64) {t : Table}
    (hbuild : Table.buildTable cap es = some t) (hcap : t.capacity < 2 ^ 64) :
    ∃ t', deserialize (Table.serialize t) = Except.ok t' ∧ t' = t ∧
      ∀ e ∈ es, t'.lookup e.hash = some e.value := by
  obtain ⟨t0, hb0, hwf0, _, hE0⟩ := buildTable_spec hnd
  have he0 : t0 = t := by
    rw [hbuild] at hb0
    exact (Option.some.inj hb0).symm
  subst he0
  have hbslots : ∀ kv, some kv ∈ t0.slots → kv.hash.val < 2 ^ 64 ∧ kv.value < 2 ^ 64 := by
    intro kv hkv
    have hm : kv ∈ (entriesOf t0.slots : Multiset KeyValuePair) :=
      Multiset.mem_coe.mpr (mem_entriesOf_iff.mpr hkv)
    rw [hE0] at hm
    exact hb kv (Multiset.mem_coe.mp hm)
  refine ⟨t0, deserialize_serialize hbslots hcap, rfl, ?_⟩
  intro e he
  exact lookup_present_of_entries hwf0 hE0 he

/-- Witness for C3 at a concrete two-entry table. -/
theorem c3_serialize_roundtrip_witness :
    ∃ t', deserialize (Table.serialize
        (Table.mk [none, some ⟨⟨1⟩, 10⟩, some ⟨⟨5⟩, 20⟩, none])) = Except.ok t' ∧
      t' = Table.mk [none, some ⟨⟨1⟩, 10⟩, some ⟨⟨5⟩, 20⟩, none] ∧
      ∀ e ∈ [(⟨⟨1⟩, 10⟩ : KeyValuePair), ⟨⟨5⟩, 20⟩], t'.lookup e.hash = some e.value :=
  c3_serialize_roundtrip 4 [⟨⟨1⟩, 10⟩, ⟨⟨5⟩, 20⟩] (by decide) (by decide)
    (by decide) (by decide)

/-- Claim C8: deserialization fails with IndexCorrupt exactly when the magic
or version prefix is wrong (in particular on any valid layout whose magic
bytes were altered), fails with IndexTruncated when the prefix is right but
the byte length does not equal header plus capacity times slot width, and
succeeds only when both validations pass. -/
theorem c8_deserialize_validation (bs : List Nat) :
    (bs.take 6 ≠ MAGIC ++ VERSION →
      deserialize bs = Except.error CarIndexError.IndexCorrupt) ∧
    (bs.take 6 = MAGIC ++ VERSION →
      bs.length ≠ headerWidth + decodeLE ((bs.drop 6).take 8) * slotWidth →
      deserialize bs = Except.error CarIndexError.IndexTruncated) ∧
    (∀ t, deserialize bs = Except.ok t →
      bs.take 6 = MAGIC ++ VERSION ∧
      bs.length = headerWidth + decodeLE ((bs.drop 6).take 8) * slotWidth) ∧
    (∀ m : List Nat, m.length = 4 → m ≠ MAGIC →
      ∀ t : Table, deserialize (m ++ (Table.serialize t).drop 4)
        = Except.error CarIndexError.IndexCorrupt) := by
  refine ⟨?_, ?_, ?_, ?_⟩
  · intro hm
    unfold deserialize
    rw [if_neg hm]
  · intro hm hl
    unfold deserialize
    rw [if_pos hm, if_neg hl]
  · intro t hok
    unfold deserialize at hok
    by_cases hm : bs.take 6 = MAGIC ++ VERSION
    · rw [if_pos hm] at hok
      by_cases hl : bs.length = headerWidth + decodeLE ((bs.drop 6).take 8) * slotWidth
      · exact ⟨hm, hl⟩
      · rw [if_neg hl] at hok
        simp at hok
    · rw [if_neg hm] at hok
      simp at hok
  · intro m hlen hne t
    have hni : ¬ ((m ++ (Table.serialize t).drop 4).take 6 = MAGIC ++ VERSION) := by
      intro heq
      rw [List.take_append_eq_append_take, hlen,
        List.take_of_length_le (by omega : m.length ≤ 6)] at heq
      have hmm : m = MAGIC :=
        (List.append_inj heq (by rw [hlen]; rfl)).1
      exact hne hmm
    unfold deserialize
    rw [if_neg hni]

/-- Witness for C8 at concrete byte strings: the empty input, a bare header
prefix, a valid serialized table, and a magic-flipped valid layout. -/
theorem c8_deserialize_validation_witness :
    deserialize [] = Except.error CarIndexError.IndexCorrupt ∧
    deserialize (MAGIC ++ VERSION) = Except.error CarIndexError.IndexTruncated ∧
    ((MAGIC ++ VERSION : List Nat).take 6 = MAGIC ++ VERSION ∧
      (Table.serialize (Table.empty 0)).take 6 = MAGIC ++ VERSION ∧
      (Table.serialize (Table.empty 0)).length = headerWidth +
        decodeLE (((Table.serialize (Table.empty 0)).drop 6).take 8) * slotWidth) ∧
    deserialize ([0, 0, 0, 0] ++ (Table.serialize (Table.empty 0)).drop 4)
      = Except.error CarIndexError.IndexCorrupt := by
  refine ⟨(c8_deserialize_validation []).1 (by decide),
    (c8_deserialize_validation (MAGIC ++ VERSION)).2.1 (by decide) (by decide),
    ⟨by decide, ?_, ?_⟩,
    (c8_deserialize_validation []).2.2.2 [0, 0, 0, 0] (by decide) (by decide)
      (Table.empty 0)⟩
  · exact ((c8_deserialize_validation (Table.serialize (Table.empty 0))).2.2.1
      (Table.empty 0) (by rfl)).1
  · exact ((c8_deserialize_validation (Table.serialize (Table.empty 0))).2.2.1
      (Table.empty 0) (by rfl)).2

end CarIndex

/-! ### Removal: backward shift and invariant preservation -/

namespace CarIndex

theorem shiftBack_succ (slots : List (Option KeyValuePair)) (hole f : Nat) :
    shiftBack slots hole (f + 1) =
      match slots[(hole + 1) % slots.length]? with
      | none => slots
      | some none => slots
      | some (some r) =>
        if r.distance ((hole + 1) % slots.length) slots.length = 0 then slots
        else shiftBack ((slots.set hole (some r)).set ((hole + 1) % slots.length) none)
          ((hole + 1) % slots.length) f := rfl

theorem removeFrom_succ (slots : List (Option KeyValuePair)) (h : Hash)
    (pos probes f : Nat) :
    removeFrom slots h pos probes (f + 1) =
      match slots[pos]? with
      | none => slots
      | some none => slots
      | some (some kv) =>
        if kv.hash = h then shiftBack (slots.set pos none) pos slots.length
        else if kv.distance pos slots.length < probes then slots
        else removeFrom slots h ((pos + 1) % slots.length) (probes + 1) f := rfl

theorem succ_predIdx {len q : Nat} (hq : q < len) : (predIdx q len + 1) % len = q := by
  have hlen : 0 < len := Nat.lt_of_le_of_lt (Nat.zero_le q) hq
  unfold predIdx
  rw [Nat.mod_add_mod]
  have e : q + len - 1 + 1 = q + len := by omega
  rw [e, Nat.add_mod_right, Nat.mod_eq_of_lt hq]

theorem eq_succ_of_predIdx_eq {len q x : Nat} (hq : q < len) (_hx : x < len)
    (h : predIdx q len = x) : q = (x + 1) % len := by
  rw [← h, succ_predIdx hq]

theorem exists_empty_ne {slots : List (Option KeyValuePair)} {p : Nat}
    (hp : slots[p]? = some none)
    (hocc : (entriesOf slots).length + 1 < slots.length) :
    ∃ i : Nat, i ≠ p ∧ slots[i]? = some none := by
  have hplen : p < slots.length := pos_lt_of_getElem hp
  have hset : (entriesOf (slots.set p (some ⟨⟨0⟩, 0⟩)) : Multiset KeyValuePair)
      = (⟨⟨0⟩, 0⟩ : KeyValuePair) ::ₘ (entriesOf slots : Multiset KeyValuePair) :=
    coe_entries_set_none hp _
  have hcard := congrArg Multiset.card hset
  rw [Multiset.card_cons, Multiset.coe_card, Multiset.coe_card] at hcard
  have hlen2 : (entriesOf (slots.set p (some ⟨⟨0⟩, 0⟩))).length
      < (slots.set p (some ⟨⟨0⟩, 0⟩)).length := by
    rw [List.length_set]
    omega
  obtain ⟨i, hi⟩ := exists_empty_of_occ_lt hlen2
  have hip : i ≠ p := by
    intro he
    subst he
    rw [List.getElem?_set_eq_of_lt _ hplen] at hi
    simp at hi
  refine ⟨i, hip, ?_⟩
  rw [List.getElem?_set_ne (fun hh => hip hh.symm)] at hi
  exact hi

end CarIndex

namespace CarIndex

/-- Main specification of the backward shift: starting from a hole whose
former occupant was displaced by `D`, with the Robin Hood invariant holding
everywhere except possibly at the hole's successor, and with a stopping slot
strictly before the ring wraps, the shift restores the invariant and
preserves the entry multiset and the length. -/
theorem shiftBack_spec :
    ∀ (fuel : Nat) (slots : List (Option KeyValuePair)) (hole D : Nat),
    hole < slots.length →
    slots[hole]? = some none →
    (∀ q kv, q ≠ (hole + 1) % slots.length → slots[q]? = some (some kv) →
      0 < kv.distance q slots.length →
      ∃ kv', slots[predIdx q slots.length]? = some (some kv') ∧
        kv.distance q slots.length
          ≤ kv'.distance (predIdx q slots.length) slots.length + 1) →
    (∀ e, slots[(hole + 1) % slots.length]? = some (some e) →
      e.distance ((hole + 1) % slots.length) slots.length ≤ D + 1) →
    (0 < D → ∃ kv', slots[predIdx hole slots.length]? = some (some kv') ∧
      D ≤ kv'.distance (predIdx hole slots.length) slots.length + 1) →
    (∃ j : Nat, j < fuel ∧ j + 1 < slots.length ∧
      slots[(hole + 1 + j) % slots.length]? = some none) →
    RHInv (shiftBack slots hole fuel) ∧
    (entriesOf (shiftBack slots hole fuel) : Multiset KeyValuePair)
      = (entriesOf slots : Multiset KeyValuePair) ∧
    (shiftBack slots hole fuel).length = slots.length := by
  intro fuel
  induction fuel with
  | zero =>
    intro slots hole D _ _ _ _ _ hwin
    obtain ⟨j, hj, _, _⟩ := hwin
    omega
  | succ f ih =>
    intro slots hole D hhole hempt hexc hsb hdp hwin
    have hlen : 0 < slots.length := Nat.lt_of_le_of_lt (Nat.zero_le hole) hhole
    have hs : (hole + 1) % slots.length < slots.length := Nat.mod_lt _ hlen
    obtain ⟨o, ho⟩ : ∃ o, slots[(hole + 1) % slots.length]? = some o :=
      ⟨_, List.getElem?_eq_getElem hs⟩
    have hstop : (slots[(hole + 1) % slots.length]? = some none
        ∨ ∃ r, slots[(hole + 1) % slots.length]? = some (some r) ∧
          r.distance ((hole + 1) % slots.length) slots.length = 0) →
        RHInv slots := by
      intro hcond q kv hq hd0
      by_cases hqs : q = (hole + 1) % slots.length
      · subst hqs
        rcases hcond with hc | ⟨r, hr, hr0⟩
        · rw [hc] at hq
          simp at hq
        · rw [hr] at hq
          have hrk : r = kv := by
            injection hq with h1
            injection h1
          subst hrk
          omega
      · exact hexc q kv hqs hq hd0
    cases o with
    | none =>
      rw [shiftBack_succ]
      simp only [ho]
      exact ⟨hstop (Or.inl ho), by trivial, by trivial⟩
    | some r =>
      by_cases hr0 : r.distance ((hole + 1) % slots.length) slots.length = 0
      · rw [shiftBack_succ]
        simp only [ho]
        rw [if_pos hr0]
        exact ⟨hstop (Or.inr ⟨r, ho, hr0⟩), rfl, rfl⟩
      · -- the successor entry moves back into the hole
        have hshne : (hole + 1) % slots.length ≠ hole := by
          intro he
          rw [he, hempt] at ho
          simp at ho
        have hdstep : r.distance ((hole + 1) % slots.length) slots.length
            = (r.distance hole slots.length + 1) % slots.length :=
          distance_succ r.hash hlen hole
        have hdhlt : r.distance hole slots.length < slots.length := kv_distance_lt hlen
        have hdh : r.distance ((hole + 1) % slots.length) slots.length
            = r.distance hole slots.length + 1 := by
          rcases Nat.lt_or_ge (r.distance hole slots.length + 1) slots.length with hc | hc
          · rw [Nat.mod_eq_of_lt hc] at hdstep
            omega
          · have he : r.distance hole slots.length + 1 = slots.length := by omega
            rw [he, Nat.mod_self] at hdstep
            omega
        have hlen2 : ((slots.set hole (some r)).set ((hole + 1) % slots.length)
            none).length = slots.length := by
          simp [List.length_set]
        have hF1 : ((slots.set hole (some r)).set ((hole + 1) % slots.length)
            none)[(hole + 1) % slots.length]? = some none :=
          List.getElem?_set_eq_of_lt _ (by rw [List.length_set]; exact hs)
        have hF2 : ((slots.set hole (some r)).set ((hole + 1) % slots.length)
            none)[hole]? = some (some r) := by
          rw [List.getElem?_set_ne hshne]
          exact List.getElem?_set_eq_of_lt _ hhole
        have hF3 : ∀ x : Nat, x ≠ hole → x ≠ (hole + 1) % slots.length →
            ((slots.set hole (some r)).set ((hole + 1) % slots.length)
              none)[x]? = slots[x]? := by
          intro x h1 h2
          rw [List.getElem?_set_ne (fun hh => h2 hh.symm),
            List.getElem?_set_ne (fun hh => h1 hh.symm)]
        -- the six premises of the induction hypothesis
        have h_a : (hole + 1) % slots.length
            < ((slots.set hole (some r)).set ((hole + 1) % slots.length) none).length := by
          rw [hlen2]
          exact hs
        have h_c : ∀ q kv, q ≠ ((hole + 1) % slots.length + 1) %
              ((slots.set hole (some r)).set ((hole + 1) % slots.length) none).length →
            ((slots.set hole (some r)).set ((hole + 1) % slots.length)
              none)[q]? = some (some kv) →
            0 < kv.distance q ((slots.set hole (some r)).set ((hole + 1) % slots.length)
              none).length →
            ∃ kv', ((slots.set hole (some r)).set ((hole + 1) % slots.length)
                none)[predIdx q ((slots.set hole (some r)).set
                  ((hole + 1) % slots.length) none).length]? = some (some kv') ∧
              kv.distance q ((slots.set hole (some r)).set ((hole + 1) % slots.length)
                  none).length
                ≤ kv'.distance (predIdx q ((slots.set hole (some r)).set
                    ((hole + 1) % slots.length) none).length)
                  ((slots.set hole (some r)).set ((hole + 1) % slots.length)
                    none).length + 1 := by
          simp only [hlen2]
          intro q kv hqne hq hd0
          by_cases hq_s : q = (hole + 1) % slots.length
          · rw [hq_s, hF1] at hq
            simp at hq
          · by_cases hq_hole : q = hole
            · rw [hq_hole] at hq hd0 ⊢
              rw [hF2] at hq
              have hrk : r = kv := by
                injection hq with h1
                injection h1
              subst hrk
              have hdlt : r.distance ((hole + 1) % slots.length) slots.length
                  < slots.length := kv_distance_lt hlen
              have hlen3 : 3 ≤ slots.length := by omega
              have hpne_hole : predIdx hole slots.length ≠ hole := by
                intro he
                exact hshne (eq_succ_of_predIdx_eq hhole hhole he).symm
              have hpne_s : predIdx hole slots.length ≠ (hole + 1) % slots.length := by
                intro he
                have h1 := eq_succ_of_predIdx_eq hhole hs he
                rw [Nat.mod_add_mod] at h1
                exact add_mod_ne_self hhole (show 0 < 2 by omega) (by omega) h1.symm
              have hd2 : r.distance ((hole + 1) % slots.length) slots.length ≤ D + 1 :=
                hsb r ho
              have hD0 : 0 < D := by omega
              obtain ⟨kv', hkv', hb'⟩ := hdp hD0
              refine ⟨kv', ?_, ?_⟩
              · rw [hF3 _ hpne_hole hpne_s]
                exact hkv'
              · omega
            · rw [hF3 q hq_hole hq_s] at hq
              have hqlen : q < slots.length := pos_lt_of_getElem hq
              obtain ⟨kv', hkv', hb'⟩ := hexc q kv hq_s hq hd0
              have hp1 : predIdx q slots.length ≠ hole := by
                intro he
                exact hq_s (eq_succ_of_predIdx_eq hqlen hhole he)
              have hp2 : predIdx q slots.length ≠ (hole + 1) % slots.length := by
                intro he
                exact hqne (eq_succ_of_predIdx_eq hqlen hs he)
              refine ⟨kv', ?_, hb'⟩
              rw [hF3 _ hp1 hp2]
              exact hkv'
        have h_d : ∀ e, ((slots.set hole (some r)).set ((hole + 1) % slots.length)
              none)[((hole + 1) % slots.length + 1) %
                ((slots.set hole (some r)).set ((hole + 1) % slots.length)
                  none).length]? = some (some e) →
            e.distance (((hole + 1) % slots.length + 1) %
                ((slots.set hole (some r)).set ((hole + 1) % slots.length)
                  none).length)
              ((slots.set hole (some r)).set ((hole + 1) % slots.length) none).length
              ≤ r.distance ((hole + 1) % slots.length) slots.length + 1 := by
          simp only [hlen2]
          intro e he
          have hs2len : ((hole + 1) % slots.length + 1) % slots.length
              < slots.length := Nat.mod_lt _ hlen
          by_cases hs2s : ((hole + 1) % slots.length + 1) % slots.length
              = (hole + 1) % slots.length
          · rw [hs2s, hF1] at he
            simp at he
          · by_cases hs2hole : ((hole + 1) % slots.length + 1) % slots.length = hole
            · rw [hs2hole, hF2] at he
              have hre : r = e := by
                injection he with h1
                injection h1
              subst hre
              rw [hs2hole]
              omega
            · rw [hF3 _ hs2hole hs2s] at he
              rcases Nat.eq_zero_or_pos (e.distance (((hole + 1) % slots.length + 1)
                  % slots.length) slots.length) with h0 | h0
              · omega
              · obtain ⟨kv', hkv', hb'⟩ := hexc _ e hs2s he h0
                have hpred : predIdx (((hole + 1) % slots.length + 1)
                    % slots.length) slots.length = (hole + 1) % slots.length :=
                  predIdx_succ hs
                rw [hpred, ho] at hkv'
                have hrk : r = kv' := by
                  injection hkv' with h1
                  injection h1
                subst hrk
                rw [hpred] at hb'
                omega
        have h_e : 0 < r.distance ((hole + 1) % slots.length) slots.length →
            ∃ kv', ((slots.set hole (some r)).set ((hole + 1) % slots.length)
                none)[predIdx ((hole + 1) % slots.length)
                  ((slots.set hole (some r)).set ((hole + 1) % slots.length)
                    none).length]? = some (some kv') ∧
              r.distance ((hole + 1) % slots.length) slots.length
                ≤ kv'.distance (predIdx ((hole + 1) % slots.length)
                    ((slots.set hole (some r)).set ((hole + 1) % slots.length)
                      none).length)
                  ((slots.set hole (some r)).set ((hole + 1) % slots.length)
                    none).length + 1 := by
          simp only [hlen2]
          intro _
          have hpred : predIdx ((hole + 1) % slots.length) slots.length = hole :=
            predIdx_succ hhole
          rw [hpred]
          refine ⟨r, hF2, ?_⟩
          omega
        have h_f : ∃ j : Nat, j < f ∧ j + 1 <
            ((slots.set hole (some r)).set ((hole + 1) % slots.length) none).length ∧
            ((slots.set hole (some r)).set ((hole + 1) % slots.length)
              none)[((hole + 1) % slots.length + 1 + j) %
                ((slots.set hole (some r)).set ((hole + 1) % slots.length)
                  none).length]? = some none := by
          obtain ⟨j, hjf, hjlen, hjemp⟩ := hwin
          have hj0 : 0 < j := by
            rcases Nat.eq_zero_or_pos j with h0 | h0
            · subst h0
              rw [Nat.add_zero, ho] at hjemp
              simp at hjemp
            · exact h0
          have hpos_eq : ((hole + 1) % slots.length + 1 + (j - 1)) % slots.length
              = (hole + 1 + j) % slots.length := by
            rw [show (hole + 1) % slots.length + 1 + (j - 1)
              = (hole + 1) % slots.length + (1 + (j - 1)) from by omega]
            rw [Nat.mod_add_mod]
            congr 1
            omega
          have hne_hole : (hole + 1 + j) % slots.length ≠ hole := by
            rw [show hole + 1 + j = hole + (1 + j) from by omega]
            exact add_mod_ne_self hhole (by omega) (by omega)
          have hne_s : (hole + 1 + j) % slots.length ≠ (hole + 1) % slots.length := by
            rw [show hole + 1 + j = hole + 1 + j from rfl, ← Nat.mod_add_mod]
            exact add_mod_ne_self hs hj0 (by omega)
          refine ⟨j - 1, by omega, by rw [hlen2]; omega, ?_⟩
          rw [hlen2, hpos_eq, hF3 _ hne_hole hne_s]
          exact hjemp
        obtain ⟨hrh2, hE2, hL2⟩ := ih ((slots.set hole (some r)).set
            ((hole + 1) % slots.length) none) ((hole + 1) % slots.length)
            (r.distance ((hole + 1) % slots.length) slots.length)
            h_a hF1 h_c h_d h_e h_f
        have hEslots2 : (entriesOf ((slots.set hole (some r)).set
            ((hole + 1) % slots.length) none) : Multiset KeyValuePair)
            = (entriesOf slots : Multiset KeyValuePair) := by
          have hmid : (slots.set hole (some r))[(hole + 1) % slots.length]?
              = some (some r) := by
            rw [List.getElem?_set_ne (fun hh => hshne hh.symm)]
            exact ho
          have h1 := coe_entries_set_some hmid none
          simp only [Option.toList] at h1
          rw [show (([] : List KeyValuePair) : Multiset KeyValuePair) = 0 from rfl,
            add_zero] at h1
          have h2 := coe_entries_set_none hempt r
          rw [h2] at h1
          have h3 : (entriesOf ((slots.set hole (some r)).set
              ((hole + 1) % slots.length) none) : Multiset KeyValuePair) + {r}
              = (entriesOf slots : Multiset KeyValuePair) + {r} := by
            rw [h1, add_comm, Multiset.singleton_add]
          exact add_right_cancel h3
        rw [shiftBack_succ]
        simp only [ho]
        rw [if_neg hr0]
        refine ⟨hrh2, ?_, ?_⟩
        · rw [hE2, hEslots2]
        · rw [hL2, hlen2]

end CarIndex

namespace CarIndex

theorem removeFrom_not_found {slots : List (Option KeyValuePair)} {h : Hash}
    (habs : ∀ kv ∈ entriesOf slots, kv.hash ≠ h) :
    ∀ (fuel pos probes : Nat), removeFrom slots h pos probes fuel = slots := by
  intro fuel
  induction fuel with
  | zero =>
    intro pos probes
    rfl
  | succ f ihf =>
    intro pos probes
    rw [removeFrom_succ]
    cases ho : slots[pos]? with
    | none => simp only [ho]
    | some o =>
      cases o with
      | none => simp only [ho]
      | some kv =>
        simp only [ho]
        rw [if_neg (habs kv (mem_entriesOf_of_getElem ho))]
        by_cases hlt : kv.distance pos slots.length < probes
        · rw [if_pos hlt]
        · rw [if_neg hlt]
          exact ihf _ _

/-- The removal scan reaches the stored entry along the same probe path as
lookup, and then performs the clear-and-shift. -/
theorem removeFrom_found {slots : List (Option KeyValuePair)} (hrh : RHInv slots)
    (hnd : NodupHashes slots) {p : Nat} {kv : KeyValuePair}
    (hp : slots[p]? = some (some kv)) :
    ∀ n j, j ≤ kv.distance p slots.length → kv.distance p slots.length - j = n →
    removeFrom slots kv.hash ((kv.hash.val % slots.length + j) % slots.length) j
      (slots.length - j)
      = shiftBack (slots.set p none) p slots.length := by
  have hplen : p < slots.length := pos_lt_of_getElem hp
  have hlen : 0 < slots.length := Nat.lt_of_le_of_lt (Nat.zero_le p) hplen
  have hdlt : kv.distance p slots.length < slots.length := kv_distance_lt hlen
  intro n
  induction n with
  | zero =>
    intro j hj hn
    have hjd : j = kv.distance p slots.length := by omega
    have e : (kv.hash.val % slots.length + j) % slots.length = p := by
      rw [hjd]
      exact bucket_add_distance kv.hash hplen
    rw [e]
    have hfuel : slots.length - j = (slots.length - j - 1) + 1 := by omega
    rw [hfuel, removeFrom_succ]
    simp [hp]
  | succ n ihn =>
    intro j hj hn
    have hjlt : j < kv.distance p slots.length := by omega
    obtain ⟨kv', hkv', hb⟩ := rh_path hrh hp (kv.distance p slots.length - j) (by omega)
    have epos : (p + slots.length - (kv.distance p slots.length - j)) % slots.length
        = (kv.hash.val % slots.length + j) % slots.length := by
      rw [kv_dist] at hj ⊢
      exact probe_pos kv.hash hplen hj
    rw [epos] at hkv' hb
    have hne : kv'.hash ≠ kv.hash := by
      intro hh
      have hpp := hash_pos_inj hnd hkv' hp hh
      have h1 : kv.hash.distance ((kv.hash.val % slots.length + j) % slots.length)
          slots.length = j := distance_probe kv.hash hlen (by omega)
      rw [hpp] at h1
      rw [kv_dist] at hjlt
      omega
    have hfuel : slots.length - j = (slots.length - (j + 1)) + 1 := by omega
    rw [hfuel, removeFrom_succ]
    simp only [hkv']
    rw [if_neg hne, if_neg (by omega :
      ¬ kv'.distance ((kv.hash.val % slots.length + j) % slots.length) slots.length < j)]
    rw [succ_probe_idx]
    exact ihn (j + 1) (by omega) (by omega)

/-- Tables whose occupied entries all sit in their home bucket satisfy the
Robin Hood invariant trivially. -/
theorem rhinv_of_home {slots : List (Option KeyValuePair)}
    (h : ∀ (q : Nat) (kv : KeyValuePair),
      slots[q]? = some (some kv) → kv.distance q slots.length = 0) :
    RHInv slots := by
  intro q kv hq hd0
  rw [h q kv hq] at hd0
  omega

theorem shiftBack_pair0_spec (b : KeyValuePair) :
    RHInv (shiftBack [none, some b] 0 2) ∧
    (entriesOf (shiftBack [none, some b] 0 2) : Multiset KeyValuePair) = {b} ∧
    (shiftBack [none, some b] 0 2).length = 2 := by
  rcases Nat.mod_two_eq_zero_or_one b.hash.val with hb | hb
  · have hres : shiftBack [none, some b] 0 2 = [some b, none] := by
      simp [shiftBack, KeyValuePair.distance, Hash.distance, hb, List.set]
    rw [hres]
    refine ⟨rhinv_of_home ?_, by simp [entriesOf], rfl⟩
    intro q kv hq
    match q, hq with
    | 0, hq =>
      have hbk : b = kv := by
        injection hq with h1
        injection h1
      subst hbk
      simp [KeyValuePair.distance, Hash.distance, hb]
    | 1, hq => simp at hq
    | q + 2, hq => simp at hq
  · have hres : shiftBack [none, some b] 0 2 = [none, some b] := by
      simp [shiftBack, KeyValuePair.distance, Hash.distance, hb, List.set]
    rw [hres]
    refine ⟨rhinv_of_home ?_, by simp [entriesOf], rfl⟩
    intro q kv hq
    match q, hq with
    | 0, hq => simp at hq
    | 1, hq =>
      have hbk : b = kv := by
        injection hq with h1
        injection h1
      subst hbk
      simp [KeyValuePair.distance, Hash.distance, hb]
    | q + 2, hq => simp at hq

theorem shiftBack_pair1_spec (b : KeyValuePair) :
    RHInv (shiftBack [some b, none] 1 2) ∧
    (entriesOf (shiftBack [some b, none] 1 2) : Multiset KeyValuePair) = {b} ∧
    (shiftBack [some b, none] 1 2).length = 2 := by
  rcases Nat.mod_two_eq_zero_or_one b.hash.val with hb | hb
  · have hres : shiftBack [some b, none] 1 2 = [some b, none] := by
      simp [shiftBack, KeyValuePair.distance, Hash.distance, hb, List.set]
    rw [hres]
    refine ⟨rhinv_of_home ?_, by simp [entriesOf], rfl⟩
    intro q kv hq
    match q, hq with
    | 0, hq =>
      have hbk : b = kv := by
        injection hq with h1
        injection h1
      subst hbk
      simp [KeyValuePair.distance, Hash.distance, hb]
    | 1, hq => simp at hq
    | q + 2, hq => simp at hq
  · have hres : shiftBack [some b, none] 1 2 = [none, some b] := by
      simp [shiftBack, KeyValuePair.distance, Hash.distance, hb, List.set]
    rw [hres]
    refine ⟨rhinv_of_home ?_, by simp [entriesOf], rfl⟩
    intro q kv hq
    match q, hq with
    | 0, hq => simp at hq
    | 1, hq =>
      have hbk : b = kv := by
        injection hq with h1
        injection h1
      subst hbk
      simp [KeyValuePair.distance, Hash.distance, hb]
    | q + 2, hq => simp at hq

end CarIndex

namespace CarIndex

/-- Removal preserves capacity and the Robin Hood invariant and deletes
exactly the entries carrying the removed digest. -/
theorem remove_spec {t : Table} (hwf : t.WF)
    (hrem : t.occupiedCount < t.capacity ∨ t.capacity ≤ 2) (h : Hash) :
    (t.remove h).slots.length = t.slots.length ∧
    RHInv (t.remove h).slots ∧
    (entriesOf (t.remove h).slots : Multiset KeyValuePair)
      = (entriesOf t.slots : Multiset KeyValuePair).filter
        (fun kv => ¬ kv.hash = h) := by
  by_cases hex : ∃ kv ∈ entriesOf t.slots, kv.hash = h
  case neg =>
    push_neg at hex
    have hr : (t.remove h).slots = t.slots := removeFrom_not_found hex _ _ _
    rw [hr]
    refine ⟨rfl, hwf.1, ?_⟩
    exact (Multiset.filter_eq_self.mpr
      (fun kv hkv => hex kv (Multiset.mem_coe.mp hkv))).symm
  case pos =>
    obtain ⟨kv, hkvmem, rfl⟩ := hex
    obtain ⟨p, hp⟩ : ∃ p : Nat, t.slots[p]? = some (some kv) :=
      List.mem_iff_getElem?.mp (mem_entriesOf_iff.mp hkvmem)
    have hplen : p < t.slots.length := pos_lt_of_getElem hp
    have hlen : 0 < t.slots.length := Nat.lt_of_le_of_lt (Nat.zero_le p) hplen
    have h1 : (entriesOf (t.slots.set p none) : Multiset KeyValuePair) + {kv}
        = (entriesOf t.slots : Multiset KeyValuePair) := by
      have h0 := coe_entries_set_some hp (none : Option KeyValuePair)
      simp only [Option.toList] at h0
      rwa [show (([] : List KeyValuePair) : Multiset KeyValuePair) = 0 from rfl,
        add_zero] at h0
    have hocc1 : (entriesOf (t.slots.set p none)).length + 1
        = (entriesOf t.slots).length := by
      have h2 := congrArg Multiset.card h1
      rw [Multiset.card_add, Multiset.coe_card, Multiset.coe_card,
        Multiset.card_singleton] at h2
      omega
    have hfilter : (entriesOf (t.slots.set p none) : Multiset KeyValuePair)
        = (entriesOf t.slots : Multiset KeyValuePair).filter
          (fun x => ¬ x.hash = kv.hash) := by
      rw [← h1, Multiset.filter_add]
      have hkvf : Multiset.filter (fun x => ¬ x.hash = kv.hash)
          ({kv} : Multiset KeyValuePair) = 0 := by
        rw [Multiset.filter_singleton, if_neg (by simp)]
        rfl
      rw [hkvf, add_zero]
      refine (Multiset.filter_eq_self.mpr ?_).symm
      intro x hx hxh
      have hndm : ((entriesOf t.slots : Multiset KeyValuePair).map
          KeyValuePair.hash).Nodup := by
        rw [Multiset.map_coe, Multiset.coe_nodup]
        exact hwf.2
      rw [← h1, Multiset.map_add] at hndm
      have hx1 : kv.hash ∈ (entriesOf (t.slots.set p none)
          : Multiset KeyValuePair).map KeyValuePair.hash := by
        have hmm := Multiset.mem_map_of_mem KeyValuePair.hash hx
        rwa [hxh] at hmm
      have hx2 : kv.hash ∈ (({kv} : Multiset KeyValuePair)).map KeyValuePair.hash := by
        simp
      rw [Multiset.nodup_iff_count_le_one] at hndm
      have hc := hndm kv.hash
      rw [Multiset.count_add] at hc
      have hc1 := Multiset.one_le_count_iff_mem.mpr hx1
      have hc2 := Multiset.one_le_count_iff_mem.mpr hx2
      omega
    have hscan := removeFrom_found hwf.1 hwf.2 hp (kv.distance p t.slots.length) 0
      (Nat.zero_le _) (by omega)
    rw [Nat.add_zero, Nat.sub_zero, Nat.mod_eq_of_lt (Nat.mod_lt _ hlen)] at hscan
    have hrs : (t.remove kv.hash).slots
        = shiftBack (t.slots.set p none) p t.slots.length := hscan
    have hempt1 : (t.slots.set p none)[p]? = some none :=
      List.getElem?_set_eq_of_lt _ hplen
    have hoccd : t.occupiedCount = (entriesOf t.slots).length := rfl
    have hcapd : t.capacity = t.slots.length := rfl
    by_cases hocclt : t.occupiedCount < t.capacity
    · -- an empty slot exists besides the hole: the generic shift argument
      have h_exc : ∀ q kv2, q ≠ (p + 1) % (t.slots.set p none).length →
          (t.slots.set p none)[q]? = some (some kv2) →
          0 < kv2.distance q (t.slots.set p none).length →
          ∃ kv', (t.slots.set p none)[predIdx q (t.slots.set p none).length]?
              = some (some kv') ∧
            kv2.distance q (t.slots.set p none).length
              ≤ kv'.distance (predIdx q (t.slots.set p none).length)
                (t.slots.set p none).length + 1 := by
        simp only [List.length_set]
        intro q kv2 hqne hq hd0
        by_cases hqp : q = p
        · rw [hqp, List.getElem?_set_eq_of_lt _ hplen] at hq
          simp at hq
        · rw [List.getElem?_set_ne (fun hh => hqp hh.symm)] at hq
          obtain ⟨kv', hkv', hb'⟩ := hwf.1 q kv2 hq hd0
          have hqlen : q < t.slots.length := pos_lt_of_getElem hq
          have hpne : predIdx q t.slots.length ≠ p := by
            intro he
            exact hqne (eq_succ_of_predIdx_eq hqlen hplen he)
          refine ⟨kv', ?_, hb'⟩
          rw [List.getElem?_set_ne (fun hh => hpne hh.symm)]
          exact hkv'
      have h_sb : ∀ e, (t.slots.set p none)[(p + 1) %
            (t.slots.set p none).length]? = some (some e) →
          e.distance ((p + 1) % (t.slots.set p none).length)
            (t.slots.set p none).length ≤ kv.distance p t.slots.length + 1 := by
        simp only [List.length_set]
        intro e he
        by_cases hsp : (p + 1) % t.slots.length = p
        · rw [hsp, List.getElem?_set_eq_of_lt _ hplen] at he
          simp at he
        · rw [List.getElem?_set_ne (fun hh => hsp hh.symm)] at he
          rcases Nat.eq_zero_or_pos
            (e.distance ((p + 1) % t.slots.length) t.slots.length) with h0 | h0
          · omega
          · obtain ⟨kv', hkv', hb'⟩ := hwf.1 _ e he h0
            rw [predIdx_succ hplen, hp] at hkv'
            have hkk : kv = kv' := by
              injection hkv' with h2
              injection h2
            subst hkk
            rw [predIdx_succ hplen] at hb'
            exact hb'
      have h_dp : 0 < kv.distance p t.slots.length →
          ∃ kv', (t.slots.set p none)[predIdx p (t.slots.set p none).length]?
              = some (some kv') ∧
            kv.distance p t.slots.length
              ≤ kv'.distance (predIdx p (t.slots.set p none).length)
                (t.slots.set p none).length + 1 := by
        simp only [List.length_set]
        intro hD0
        obtain ⟨kv', hkv', hb'⟩ := hwf.1 p kv hp hD0
        have hpne : predIdx p t.slots.length ≠ p := by
          intro he
          have h2 := eq_succ_of_predIdx_eq hplen hplen he
          have hlen1 : 1 < t.slots.length := by
            rcases Nat.lt_or_ge 1 t.slots.length with hc | hc
            · exact hc
            · have he1 : t.slots.length = 1 := by omega
              have hd1 : kv.distance p t.slots.length < 1 := by
                rw [he1]
                exact kv_distance_lt (by omega)
              omega
          exact add_mod_ne_self hplen (by omega) (by omega) h2.symm
        refine ⟨kv', ?_, hb'⟩
        rw [List.getElem?_set_ne (fun hh => hpne hh.symm)]
        exact hkv'
      have hocc2 : (entriesOf (t.slots.set p none)).length + 1 < t.slots.length := by
        omega
      obtain ⟨i, hip, hi⟩ := exists_empty_ne hempt1
        (by rw [List.length_set]; exact hocc2)
      have hilen : i < t.slots.length := by
        have hi2 := pos_lt_of_getElem hi
        rwa [List.length_set] at hi2
      have hpos_eq : (p + 1 + (i + t.slots.length - (p + 1)) % t.slots.length)
          % t.slots.length = i := by
        rw [Nat.add_mod_mod]
        have e2 : p + 1 + (i + t.slots.length - (p + 1)) = i + t.slots.length := by
          omega
        rw [e2, Nat.add_mod_right, Nat.mod_eq_of_lt hilen]
      have h_win : ∃ j : Nat, j < t.slots.length ∧
          j + 1 < (t.slots.set p none).length ∧
          (t.slots.set p none)[(p + 1 + j) % (t.slots.set p none).length]?
            = some none := by
        simp only [List.length_set]
        refine ⟨(i + t.slots.length - (p + 1)) % t.slots.length,
          Nat.mod_lt _ hlen, ?_, ?_⟩
        · by_contra hge
          push_neg at hge
          have hj : (i + t.slots.length - (p + 1)) % t.slots.length
              = t.slots.length - 1 := by
            have hml := Nat.mod_lt (i + t.slots.length - (p + 1)) hlen
            omega
          rw [hj] at hpos_eq
          have e3 : (p + 1 + (t.slots.length - 1)) % t.slots.length = p := by
            have e4 : p + 1 + (t.slots.length - 1) = p + t.slots.length := by omega
            rw [e4, Nat.add_mod_right, Nat.mod_eq_of_lt hplen]
          rw [e3] at hpos_eq
          exact hip hpos_eq.symm
        · rw [hpos_eq]
          exact hi
      obtain ⟨hrh', hE', hL'⟩ := shiftBack_spec t.slots.length (t.slots.set p none)
        p (kv.distance p t.slots.length) (by rw [List.length_set]; exact hplen)
        hempt1 h_exc h_sb h_dp h_win
      refine ⟨?_, ?_, ?_⟩
      · rw [hrs, hL', List.length_set]
      · rw [hrs]
        exact hrh'
      · rw [hrs, hE', hfilter]
    · -- tiny full table: capacity 1 or 2
      have hocc_eq : t.occupiedCount = t.capacity :=
        le_antisymm (occ_le_capacity t) (le_of_not_lt hocclt)
      have hcap2 : t.capacity ≤ 2 := hrem.resolve_left hocclt
      have hocc_pos : 1 ≤ (entriesOf t.slots).length :=
        List.length_pos.mpr (List.ne_nil_of_mem hkvmem)
      rcases (by omega : t.slots.length = 1 ∨ t.slots.length = 2) with hL1 | hL2
      · -- a single slot, holding the removed entry
        have hp0 : p = 0 := by omega
        subst hp0
        obtain ⟨a, ha⟩ := List.length_eq_one.mp hL1
        rw [ha] at hp
        have hak : a = some kv := by
          simpa using hp
        subst hak
        have hset1 : ((some kv :: ([] : List (Option KeyValuePair)))).set 0 none
            = [none] := rfl
        rw [ha] at hrs hfilter
        rw [hset1] at hrs hfilter
        rw [show ([some kv] : List (Option KeyValuePair)).length = 1 from rfl] at hrs
        have hres : shiftBack ([none] : List (Option KeyValuePair)) 0 1 = [none] := by
          simp [shiftBack]
        rw [hres] at hrs
        refine ⟨?_, ?_, ?_⟩
        · rw [hrs, ha]
          rfl
        · rw [hrs]
          exact rhinv_of_home (by
            intro q kv2 hq
            match q, hq with
            | 0, hq => simp at hq
            | q + 1, hq => simp at hq)
        · rw [hrs, ha, ← hfilter]
      · -- two slots, both occupied
        obtain ⟨a, b, hab⟩ := List.length_eq_two.mp hL2
        have hEab : (entriesOf t.slots).length = 2 := by omega
        have hsome : ∃ x y : KeyValuePair, a = some x ∧ b = some y := by
          rw [hab] at hEab
          cases a with
          | none =>
            rw [entriesOf_cons, entriesOf_cons] at hEab
            cases b <;> simp [Option.toList, entriesOf_nil] at hEab
          | some x =>
            cases b with
            | none =>
              rw [entriesOf_cons, entriesOf_cons] at hEab
              simp [Option.toList, entriesOf_nil] at hEab
            | some y => exact ⟨x, y, rfl, rfl⟩
        obtain ⟨x, y, hax, hby⟩ := hsome
        subst hax
        subst hby
        rcases (by omega : p = 0 ∨ p = 1) with hp0 | hp1
        · subst hp0
          rw [hab] at hp
          have hxk : x = kv := by
            simpa using hp
          rw [hxk] at hab
          rw [hab] at hrs hfilter
          rw [show ([some kv, some y] : List (Option KeyValuePair)).set 0 none
            = [none, some y] from rfl] at hrs hfilter
          rw [show ([some kv, some y] : List (Option KeyValuePair)).length = 2
            from rfl] at hrs
          obtain ⟨hrh2, hE2, hL2'⟩ := shiftBack_pair0_spec y
          refine ⟨?_, ?_, ?_⟩
          · rw [hrs, hL2', hab]
            rfl
          · rw [hrs]
            exact hrh2
          · rw [hrs, hE2, hab, ← hfilter]
            rfl
        · subst hp1
          rw [hab] at hp
          have hyk : y = kv := by
            simpa using hp
          rw [hyk] at hab
          rw [hab] at hrs hfilter
          rw [show ([some x, some kv] : List (Option KeyValuePair)).set 1 none
            = [some x, none] from rfl] at hrs hfilter
          rw [show ([some x, some kv] : List (Option KeyValuePair)).length = 2
            from rfl] at hrs
          obtain ⟨hrh2, hE2, hL2'⟩ := shiftBack_pair1_spec x
          refine ⟨?_, ?_, ?_⟩
          · rw [hrs, hL2', hab]
            rfl
          · rw [hrs]
            exact hrh2
          · rw [hrs, hE2, hab, ← hfilter]
            rfl

end CarIndex

namespace CarIndex

theorem removeAll_spec :
    ∀ (hs : List Hash) (t : Table), t.WF →
    (t.occupiedCount < t.capacity ∨ t.capacity ≤ 2) →
    (t.removeAll hs).slots.length = t.slots.length ∧
    RHInv (t.removeAll hs).slots ∧
    NodupHashes (t.removeAll hs).slots ∧
    (entriesOf (t.removeAll hs).slots : Multiset KeyValuePair)
      = (entriesOf t.slots : Multiset KeyValuePair).filter
        (fun kv => ∀ x ∈ hs, ¬ kv.hash = x) := by
  intro hs
  induction hs with
  | nil =>
    intro t hwf _
    refine ⟨rfl, hwf.1, hwf.2, ?_⟩
    exact (Multiset.filter_eq_self.mpr (fun a _ => by simp)).symm
  | cons h hs ih =>
    intro t hwf hrem
    obtain ⟨hL1, hrh1, hE1⟩ := remove_spec hwf hrem h
    have hle : (entriesOf (t.remove h).slots : Multiset KeyValuePair)
        ≤ (entriesOf t.slots : Multiset KeyValuePair) := by
      rw [hE1]
      exact Multiset.filter_le _ _
    have hnd1 : NodupHashes (t.remove h).slots := by
      have hmle : (entriesOf (t.remove h).slots : Multiset KeyValuePair).map
          KeyValuePair.hash
          ≤ (entriesOf t.slots : Multiset KeyValuePair).map KeyValuePair.hash :=
        Multiset.map_le_map hle
      have hndt : ((entriesOf t.slots : Multiset KeyValuePair).map
          KeyValuePair.hash).Nodup := by
        rw [Multiset.map_coe, Multiset.coe_nodup]
        exact hwf.2
      have hnd2 := Multiset.nodup_of_le hmle hndt
      unfold NodupHashes
      rw [← Multiset.coe_nodup, ← Multiset.map_coe]
      exact hnd2
    have hcap1 : (t.remove h).capacity = t.capacity := hL1
    have hrem1 : (t.remove h).occupiedCount < (t.remove h).capacity
        ∨ (t.remove h).capacity ≤ 2 := by
      have hocc' : (t.remove h).occupiedCount ≤ t.occupiedCount := by
        have hcard := Multiset.card_le_card hle
        rw [Multiset.coe_card, Multiset.coe_card] at hcard
        exact hcard
      rcases hrem with hc | hc
      · left
        rw [hcap1]
        omega
      · right
        rw [hcap1]
        exact hc
    obtain ⟨hL2, hrh2, hnd2, hE2⟩ := ih (t.remove h) ⟨hrh1, hnd1⟩ hrem1
    refine ⟨?_, ?_, ?_, ?_⟩
    · rw [show t.removeAll (h :: hs) = (t.remove h).removeAll hs from rfl, hL2, hL1]
    · rw [show t.removeAll (h :: hs) = (t.remove h).removeAll hs from rfl]
      exact hrh2
    · rw [show t.removeAll (h :: hs) = (t.remove h).removeAll hs from rfl]
      exact hnd2
    · rw [show t.removeAll (h :: hs) = (t.remove h).removeAll hs from rfl, hE2, hE1,
        Multiset.filter_filter]
      apply Multiset.filter_congr
      intro a _
      simp only [List.forall_mem_cons]
      constructor
      · rintro ⟨hall, hh⟩
        exact ⟨hh, hall⟩
      · rintro ⟨hh, hall⟩
        exact ⟨hall, hh⟩

/-- Claim C6: after removing any subset of the inserted digests from a built
table, lookup still returns the correct offset for every remaining entry, and
the Robin Hood invariant holds over all occupied slots. -/
theorem c6_remove_preserves (cap : Nat) (es : List KeyValuePair)
    (hnd : (es.map KeyValuePair.hash).Nodup) {t : Table}
    (hbuild : Table.buildTable cap es = some t) (hs : List Hash) :
    RHInv (t.removeAll hs).slots ∧
    ∀ e ∈ es, e.hash ∉ hs → (t.removeAll hs).lookup e.hash = some e.value := by
  obtain ⟨t0, hb0, hwf0, hrem0, hE0⟩ := buildTable_spec hnd
  have he0 : t0 = t := by
    rw [hbuild] at hb0
    exact (Option.some.inj hb0).symm
  subst he0
  obtain ⟨hL, hrh, hndh, hE⟩ := removeAll_spec hs t0 hwf0 hrem0
  refine ⟨hrh, ?_⟩
  intro e he hehs
  apply lookup_present hrh hndh
  have hm : e ∈ (entriesOf (t0.removeAll hs).slots : Multiset KeyValuePair) := by
    rw [hE, hE0, Multiset.mem_filter]
    refine ⟨Multiset.mem_coe.mpr he, ?_⟩
    intro x hx heq
    apply hehs
    rw [heq]
    exact hx
  exact Multiset.mem_coe.mp hm

/-- Witness for C6: removing one digest from a three-entry table keeps the
other two retrievable. -/
theorem c6_remove_preserves_witness :
    RHInv ((Table.mk [none, some ⟨⟨1⟩, 10⟩, some ⟨⟨5⟩, 20⟩,
        some ⟨⟨2⟩, 30⟩]).removeAll [⟨1⟩]).slots ∧
    ∀ e ∈ [(⟨⟨1⟩, 10⟩ : KeyValuePair), ⟨⟨5⟩, 20⟩, ⟨⟨2⟩, 30⟩],
      e.hash ∉ [(⟨1⟩ : Hash)] →
      ((Table.mk [none, some ⟨⟨1⟩, 10⟩, some ⟨⟨5⟩, 20⟩,
        some ⟨⟨2⟩, 30⟩]).removeAll [⟨1⟩]).lookup e.hash = some e.value :=
  c6_remove_preserves 4 [⟨⟨1⟩, 10⟩, ⟨⟨5⟩, 20⟩, ⟨⟨2⟩, 30⟩] (by decide)
    (by decide) [⟨1⟩]

end CarIndex
